import Mathlib

/-!
Shallow embedding of the cdiff patch-analysis tools
(`tools/analyze_patch.py`, v1, and `tools/analyze_patch_saving.py`, v2).

An input file is modelled as the list of its lines after Python's
`readlines()` + `line.rstrip('\n')`: each line is a `List Char` containing
no newline character.  Byte lengths are UTF-8 encoded lengths, as Python's
`len(line.encode('utf-8'))`.  The regex character classes `\w`, `\s` and
`[\w\d,-]` are modelled by their ASCII parts (the analyzed format uses
ASCII identifiers).  All the anchored regexes of the source are
backtracking-free because the character classes involved are pairwise
disjoint, so they are embedded as deterministic `takeWhile`/`dropWhile`
scanners.
-/

namespace Cdiff

/-- UTF-8 byte length of one character, as Python's `len(ch.encode('utf-8'))`. -/
def charBytes (c : Char) : Nat :=
  if c.val < 0x80 then 1 else if c.val < 0x800 then 2
  else if c.val < 0x10000 then 3 else 4

/-- UTF-8 byte length of a line, as Python's `len(line.encode('utf-8'))`. -/
def bytesLen (l : List Char) : Nat := (l.map charBytes).sum

def toL (s : String) : List Char := s.toList

/-- ASCII part of Python's regex class `\w`: letters, digits, underscore. -/
def isWordChar (c : Char) : Bool := c.isAlphanum || c == '_'

/-- ASCII part of Python's regex class `\s`. -/
def isPyWs (c : Char) : Bool :=
  c == ' ' || c == '\t' || c == '\n' || c == '\x0b' || c == '\x0c' || c == '\r'

/-- Character class `[\w\d,-]` of the standalone-command regexes. -/
def isCmdIdChar (c : Char) : Bool := isWordChar c || c == ',' || c == '-'

/-- Embeds `def_regex.match`, regex `^(@[\w\d]+)\s(.*)$` (with `re.DOTALL`).
Returns `(group 1, group 2)`, i.e. the variable name including its `@` sigil
and the content after the single whitespace separator. -/
def matchDef : List Char → Option (List Char × List Char)
  | [] => none
  | c :: rest =>
    if c = '@' ∧ rest.takeWhile isWordChar ≠ [] then
      match rest.dropWhile isWordChar with
      | s :: content =>
        if isPyWs s then some ('@' :: rest.takeWhile isWordChar, content) else none
      | [] => none
    else none

/-- Embeds `def_regex_no_content.match`, regex `^(@[\w\d]+)$` (v2 only). -/
def matchDefNoContent : List Char → Option (List Char)
  | [] => none
  | c :: rest =>
    if c = '@' ∧ rest ≠ [] ∧ rest.all isWordChar then some ('@' :: rest) else none

/-- Value of a digit string, as Python's `int` on a `\d+` match. -/
def digitsVal (l : List Char) : Nat :=
  l.foldl (fun n c => n * 10 + (c.toNat - '0'.toNat)) 0

/-- Embeds `block_header_regex.match`, regex `^([\w\d]+)\s+([AD]\+)\s+(\d+)$`.
Returns `int(group 3)`, the declared block line count. -/
def matchBlockHeader (l : List Char) : Option Nat :=
  if l.takeWhile isWordChar = [] then none
  else
    match (l.dropWhile isWordChar).takeWhile isPyWs,
          (l.dropWhile isWordChar).dropWhile isPyWs with
    | [], _ => none
    | _ :: _, t :: '+' :: r3 =>
      if t = 'A' ∨ t = 'D' then
        match r3.takeWhile isPyWs, r3.dropWhile isPyWs with
        | [], _ => none
        | _ :: _, r4 =>
          if r4 ≠ [] ∧ r4.all Char.isDigit then some (digitsVal r4) else none
      else none
    | _ :: _, _ => none

/-- Embeds the standalone-command test
`re.match(r'^[\w\d,-]+\s+[ad].*$', line) or re.match(r'^[\w\d,-]+\s+[MR].*$', line)`. -/
def matchCmd (l : List Char) : Bool :=
  !(l.takeWhile isCmdIdChar).isEmpty &&
  !((l.dropWhile isCmdIdChar).takeWhile isPyWs).isEmpty &&
  (match (l.dropWhile isCmdIdChar).dropWhile isPyWs with
   | c :: _ => c == 'a' || c == 'd' || c == 'M' || c == 'R'
   | [] => false)

/-- Embeds `line.startswith(('a ', 'd ', 'A ', 'D '))` (and the equivalent
pair of v1 `elif` branches). -/
def hasBlockPfx : List Char → Bool
  | c :: s :: _ => (c == 'a' || c == 'd' || c == 'A' || c == 'D') && s == ' '
  | _ => false

/-- Block-body content after the optional 2-character structural marker
(`content = line[2:]` when the marker is present). -/
def stripPfx (l : List Char) : List Char := if hasBlockPfx l then l.drop 2 else l

/-- Fuel-indexed scanner for `var_usage_regex.findall`, regex `@([\w\d]+)` /
`(@[\w\d]+)`: non-overlapping left-to-right maximal matches.  Tokens are
returned with their `@` sigil (v1 re-attaches the sigil with `f"@{var_id}"`,
so both versions work with the same token strings). -/
def findRefsF : Nat → List Char → List (List Char)
  | 0, _ => []
  | _ + 1, [] => []
  | f + 1, c :: rest =>
    if c = '@' then
      if (rest.takeWhile isWordChar).isEmpty then findRefsF f rest
      else ('@' :: rest.takeWhile isWordChar) :: findRefsF f (rest.dropWhile isWordChar)
    else findRefsF f rest

def findRefs (l : List Char) : List (List Char) := findRefsF l.length l

/-- Whether a string starts with a (Python `\s`) whitespace character. -/
def headIsWs : List Char → Bool
  | w :: _ => isPyWs w
  | [] => false

/-- Fuel-indexed scanner for `literal_gap_regex.findall`, regex `#(\d+)\s`:
returns the digit groups of the non-overlapping matches. -/
def findGapsF : Nat → List Char → List (List Char)
  | 0, _ => []
  | _ + 1, [] => []
  | f + 1, c :: rest =>
    if c = '#' then
      if (rest.takeWhile Char.isDigit).isEmpty then findGapsF f rest
      else if headIsWs (rest.dropWhile Char.isDigit) then
        (rest.takeWhile Char.isDigit) :: findGapsF f (rest.dropWhile Char.isDigit).tail
      else findGapsF f rest
    else findGapsF f rest

def findGaps (l : List Char) : List (List Char) := findGapsF l.length l

/-- H4 charge of a list of gap digit groups: `len(f"#{gap_len_str} ")` each. -/
def gapCharge (gs : List (List Char)) : Nat := (gs.map (fun g => 2 + g.length)).sum

/-- Total byte length of a list of reference tokens. -/
def refBytesSum (ts : List (List Char)) : Nat := (ts.map bytesLen).sum

/-- Lookup in the `defined_vars` dict (modelled as an association list whose
head entry is the most recent binding for its key). -/
def lookupVar (m : List (List Char × List Char)) (k : List Char) : Option (List Char) :=
  (m.find? (fun p => p.1 == k)).map Prod.snd

/-- Embeds `defined_vars[var_name] = content`: overwrite semantics of a Python dict. -/
def insertVar (m : List (List Char × List Char)) (k c : List Char) :
    List (List Char × List Char) :=
  (k, c) :: m.filter (fun p => !(p.1 == k))

/-- Embeds `set.add`: membership-preserving insertion. -/
def addSet (s : List (List Char)) (x : List Char) : List (List Char) :=
  if x ∈ s then s else s ++ [x]

/-- Embeds `full_line_heuristic_regex.match`, regex `^(\s+.*|.*[};])$`:
the content starts with a whitespace character or ends in `}` or `;`. -/
def fullLineHeuristicMatch (c : List Char) : Bool :=
  (match c with | [] => false | d :: _ => isPyWs d) ||
  (match c.getLast? with | some x => x == '}' || x == ';' | none => false)

/-- The v2 classification test
`len(content) > 5 and full_line_heuristic_regex.match(content)`. -/
def classifyFull (c : List Char) : Bool := decide (5 < c.length) && fullLineHeuristicMatch c

/-- Classification of one input line by the analyzers' branch structure. -/
inductive LineKind where
  | marker : LineKind
  | defn (vn content : List Char) : LineKind
  | header (n : Nat) : LineKind
  | body (content : List Char) : LineKind
  | command (content : List Char) : LineKind
  | other : LineKind
deriving DecidableEq

/-- The content a line kind submits to the reference/gap scanners
(block-body lines after marker stripping, standalone command lines whole). -/
def scanOf : LineKind → Option (List Char)
  | LineKind.body c => some c
  | LineKind.command c => some c
  | _ => none

def defnOf : LineKind → Option (List Char × List Char)
  | LineKind.defn vn c => some (vn, c)
  | _ => none

/-- State of the v2 analyzer (`analyze_patch_saving.py`), restricted to the
fields the analysis loop reads or writes.  `blockRem` is an `Int`, as a
Python integer that is decremented.  `defEvents` journals each recorded
definition `(name, content, classified-full-line?)`; `kinds` journals the
classification of each processed line. -/
structure V2State where
  parsingDefs : Bool
  inBlock : Bool
  blockRem : Int
  defs : List (List Char × List Char)
  defEvents : List (List Char × List Char × Bool)
  usages : List (List Char)
  kinds : List LineKind
  compression_flag : Bool
  total_lines : Nat
  definition_lines : Nat
  definition_size_b : Nat
  definition_at_overhead_b : Nat
  command_lines : Nat
  command_size_b : Nat
  literal_gap_overhead_b : Nat
  block_prefix_overhead_b : Nat
  other_lines : Nat
  other_size_b : Nat
  total_reference_cost_b : Nat
  total_replaced_bytes : Nat
  fullVars : List (List Char)
  fragVars : List (List Char)
  full_line_replaced_b : Nat
  full_line_ref_cost_b : Nat
  fragment_replaced_b : Nat
  fragment_ref_cost_b : Nat

def v2Init : V2State :=
  { parsingDefs := true, inBlock := false, blockRem := 0, defs := [],
    defEvents := [], usages := [], kinds := [], compression_flag := false,
    total_lines := 0, definition_lines := 0, definition_size_b := 0,
    definition_at_overhead_b := 0, command_lines := 0, command_size_b := 0,
    literal_gap_overhead_b := 0, block_prefix_overhead_b := 0,
    other_lines := 0, other_size_b := 0, total_reference_cost_b := 0,
    total_replaced_bytes := 0, fullVars := [], fragVars := [],
    full_line_replaced_b := 0, full_line_ref_cost_b := 0,
    fragment_replaced_b := 0, fragment_ref_cost_b := 0 }

/-- Per-occurrence v2 usage handling: usage count, (H3) reference cost,
and, for defined names, replaced bytes attributed to the bucket chosen by
`full_var_name in stats['full_line_vars']`.  A name with no definition adds
nothing to the replaced/bucket counters, which is written here as adding a
conditional amount of zero. -/
def v2ApplyRef (defs : List (List Char × List Char)) (fullVars : List (List Char))
    (st : V2State) (tok : List Char) : V2State :=
  { st with
    usages := st.usages ++ [tok],
    total_reference_cost_b := st.total_reference_cost_b + bytesLen tok,
    total_replaced_bytes := st.total_replaced_bytes +
      (match lookupVar defs tok with
       | some content => bytesLen content
       | none => 0),
    full_line_replaced_b := st.full_line_replaced_b +
      (match lookupVar defs tok with
       | some content => if tok ∈ fullVars then bytesLen content else 0
       | none => 0),
    full_line_ref_cost_b := st.full_line_ref_cost_b +
      (match lookupVar defs tok with
       | some _ => if tok ∈ fullVars then bytesLen tok else 0
       | none => 0),
    fragment_replaced_b := st.fragment_replaced_b +
      (match lookupVar defs tok with
       | some content => if tok ∈ fullVars then 0 else bytesLen content
       | none => 0),
    fragment_ref_cost_b := st.fragment_ref_cost_b +
      (match lookupVar defs tok with
       | some _ => if tok ∈ fullVars then 0 else bytesLen tok
       | none => 0) }

def v2ApplyRefs (defs : List (List Char × List Char)) (fullVars : List (List Char))
    (st : V2State) (toks : List (List Char)) : V2State :=
  toks.foldl (v2ApplyRef defs fullVars) st

/-- Reference scan plus (H4) literal-gap scan of one content string. -/
def v2ScanLine (st : V2State) (content : List Char) : V2State :=
  let st1 := v2ApplyRefs st.defs st.fullVars st (findRefs content)
  { st1 with literal_gap_overhead_b := st1.literal_gap_overhead_b + gapCharge (findGaps content) }

def v2DoMarker (st : V2State) : V2State :=
  { st with compression_flag := true, kinds := st.kinds ++ [LineKind.marker] }

def v2DoDef (st : V2State) (vn content : List Char) (lineB : Nat) : V2State :=
  { st with defs := insertVar st.defs vn content,
            definition_lines := st.definition_lines + 1,
            definition_size_b := st.definition_size_b + lineB,
            definition_at_overhead_b := st.definition_at_overhead_b + 1,
            fullVars := if classifyFull content then addSet st.fullVars vn else st.fullVars,
            fragVars := if classifyFull content then st.fragVars else addSet st.fragVars vn,
            defEvents := st.defEvents ++ [(vn, content, classifyFull content)],
            kinds := st.kinds ++ [LineKind.defn vn content] }

def v2DoDefEmpty (st : V2State) (vn : List Char) (lineB : Nat) : V2State :=
  { st with defs := insertVar st.defs vn [],
            definition_lines := st.definition_lines + 1,
            definition_size_b := st.definition_size_b + lineB,
            definition_at_overhead_b := st.definition_at_overhead_b + 1,
            fragVars := addSet st.fragVars vn,
            defEvents := st.defEvents ++ [(vn, [], false)],
            kinds := st.kinds ++ [LineKind.defn vn []] }

def v2DoBody (st : V2State) (l : List Char) : V2State :=
  let stA := { st with
    command_lines := st.command_lines + 1,
    command_size_b := st.command_size_b + bytesLen l,
    block_prefix_overhead_b := st.block_prefix_overhead_b + (if hasBlockPfx l then 2 else 0),
    kinds := st.kinds ++ [LineKind.body (stripPfx l)] }
  let stB := v2ScanLine stA (stripPfx l)
  { stB with blockRem := st.blockRem - 1,
             inBlock := if st.blockRem - 1 = 0 then false else st.inBlock }

def v2DoHeader (st : V2State) (n : Nat) (lineB : Nat) : V2State :=
  { st with command_lines := st.command_lines + 1,
            command_size_b := st.command_size_b + lineB,
            blockRem := (n : Int), inBlock := decide (0 < n),
            kinds := st.kinds ++ [LineKind.header n] }

def v2DoCmd (st : V2State) (l : List Char) : V2State :=
  v2ScanLine { st with command_lines := st.command_lines + 1,
                       command_size_b := st.command_size_b + bytesLen l,
                       kinds := st.kinds ++ [LineKind.command l] } l

def v2DoOther (st : V2State) (lineB : Nat) : V2State :=
  { st with other_lines := st.other_lines + 1,
            other_size_b := st.other_size_b + lineB,
            kinds := st.kinds ++ [LineKind.other] }

/-- Dispatch of one line once the definition phase is over (or was never
applicable): block body, block header, standalone command, or other. -/
def v2Dispatch (st : V2State) (l : List Char) : V2State :=
  if st.inBlock then v2DoBody st l
  else
    match matchBlockHeader l with
    | some n => v2DoHeader st n (bytesLen l)
    | none => if matchCmd l then v2DoCmd st l else v2DoOther st (bytesLen l)

/-- One iteration of the v2 `for line_num, line in enumerate(lines)` loop.
`first` is `line_num == 0`. -/
def v2Step (first : Bool) (st : V2State) (l : List Char) : V2State :=
  let st0 := { st with total_lines := st.total_lines + 1 }
  if first && l == ['~'] then v2DoMarker st0
  else if st.parsingDefs then
    match matchDef l with
    | some (vn, c) => v2DoDef st0 vn c (bytesLen l)
    | none =>
      match matchDefNoContent l with
      | some vn => v2DoDefEmpty st0 vn (bytesLen l)
      | none => v2Dispatch { st0 with parsingDefs := false } l
  else v2Dispatch { st0 with parsingDefs := false } l

def v2RunAux (st : V2State) (first : Bool) : List (List Char) → V2State
  | [] => st
  | l :: ls => v2RunAux (v2Step first st l) false ls

/-- The whole v2 analysis loop over the stripped lines of a file. -/
def v2Run (lines : List (List Char)) : V2State := v2RunAux v2Init true lines

/-- State of the v1 analyzer (`analyze_patch.py`). -/
structure V1State where
  inBlock : Bool
  blockRem : Int
  defs : List (List Char × List Char)
  usages : List (List Char)
  kinds : List LineKind
  compression_flag : Bool
  total_lines : Nat
  definition_lines : Nat
  definition_size_b : Nat
  definition_at_overhead_b : Nat
  command_lines : Nat
  command_size_b : Nat
  command_at_overhead_b : Nat
  literal_gap_overhead_b : Nat
  block_prefix_overhead_b : Nat
  other_lines : Nat
  other_size_b : Nat

def v1Init : V1State :=
  { inBlock := false, blockRem := 0, defs := [], usages := [], kinds := [],
    compression_flag := false, total_lines := 0, definition_lines := 0,
    definition_size_b := 0, definition_at_overhead_b := 0, command_lines := 0,
    command_size_b := 0, command_at_overhead_b := 0, literal_gap_overhead_b := 0,
    block_prefix_overhead_b := 0, other_lines := 0, other_size_b := 0 }

def v1DoMarker (st : V1State) : V1State :=
  { st with compression_flag := true, kinds := st.kinds ++ [LineKind.marker] }

/-- v1 usage/gap scan of one content string: one usage per occurrence, (H3)
one byte per occurrence (`+= len(usages)`), (H4) as in v2. -/
def v1ScanLine (st : V1State) (content : List Char) : V1State :=
  { st with usages := st.usages ++ findRefs content,
            command_at_overhead_b := st.command_at_overhead_b + (findRefs content).length,
            literal_gap_overhead_b := st.literal_gap_overhead_b + gapCharge (findGaps content) }

def v1DoBody (st : V1State) (l : List Char) : V1State :=
  let stA := { st with
    command_lines := st.command_lines + 1,
    command_size_b := st.command_size_b + bytesLen l,
    block_prefix_overhead_b := st.block_prefix_overhead_b + (if hasBlockPfx l then 2 else 0),
    kinds := st.kinds ++ [LineKind.body (stripPfx l)] }
  let stB := v1ScanLine stA (stripPfx l)
  { stB with blockRem := st.blockRem - 1,
             inBlock := if st.blockRem - 1 = 0 then false else st.inBlock }

def v1DoDef (st : V1State) (vn content : List Char) (lineB : Nat) : V1State :=
  { st with defs := insertVar st.defs vn content,
            definition_lines := st.definition_lines + 1,
            definition_size_b := st.definition_size_b + lineB,
            definition_at_overhead_b := st.definition_at_overhead_b + 1,
            kinds := st.kinds ++ [LineKind.defn vn content] }

def v1DoHeader (st : V1State) (n : Nat) (lineB : Nat) : V1State :=
  { st with command_lines := st.command_lines + 1,
            command_size_b := st.command_size_b + lineB,
            blockRem := (n : Int), inBlock := decide (0 < n),
            kinds := st.kinds ++ [LineKind.header n] }

def v1DoCmd (st : V1State) (l : List Char) : V1State :=
  v1ScanLine { st with command_lines := st.command_lines + 1,
                       command_size_b := st.command_size_b + bytesLen l,
                       kinds := st.kinds ++ [LineKind.command l] } l

def v1DoOther (st : V1State) (lineB : Nat) : V1State :=
  { st with other_lines := st.other_lines + 1,
            other_size_b := st.other_size_b + lineB,
            kinds := st.kinds ++ [LineKind.other] }

/-- One iteration of the v1 loop.  Note that, unlike v2, v1 tries the
definition regex on every line processed outside a block. -/
def v1Step (first : Bool) (st : V1State) (l : List Char) : V1State :=
  let st0 := { st with total_lines := st.total_lines + 1 }
  if first && l == ['~'] then v1DoMarker st0
  else if st.inBlock then v1DoBody st0 l
  else
    match matchDef l with
    | some (vn, c) => v1DoDef st0 vn c (bytesLen l)
    | none =>
      match matchBlockHeader l with
      | some n => v1DoHeader st0 n (bytesLen l)
      | none => if matchCmd l then v1DoCmd st0 l else v1DoOther st0 (bytesLen l)

def v1RunAux (st : V1State) (first : Bool) : List (List Char) → V1State
  | [] => st
  | l :: ls => v1RunAux (v1Step first st l) false ls

/-- The whole v1 analysis loop over the stripped lines of a file. -/
def v1Run (lines : List (List Char)) : V1State := v1RunAux v1Init true lines

/-- Embeds `unused_vars = defined_set - used_set`, as the keys of `defined_vars`
not occurring among the usage occurrences. -/
def unusedVars (m : List (List Char × List Char)) (usages : List (List Char)) :
    List (List Char) :=
  (m.map Prod.fst).filter (fun k => !(usages.contains k))

/-- Dead-weight estimate: `1 + 1 + len(defined_vars[var].encode('utf-8'))`
summed over the stray variables. -/
def deadWeight (m : List (List Char × List Char)) (usages : List (List Char)) : Nat :=
  ((unusedVars m usages).map (fun k => 1 + 1 + bytesLen ((lookupVar m k).getD []))).sum

/-- Total definition cost `1 + 1 + len(content)` over all entries of the
definition table; an upper bound used to relate dead weight to the
accumulated definition byte size. -/
def defsSum (m : List (List Char × List Char)) : Nat :=
  (m.map (fun p => 1 + 1 + bytesLen p.2)).sum

/-- Embeds `def_cost_full_b`: definition cost `1 + 1 + len(content)` summed over the
definitions whose name is in `full_line_vars`. -/
def defCostFull (m : List (List Char × List Char)) (fullVars : List (List Char)) : Nat :=
  ((m.filter (fun p => p.1 ∈ fullVars)).map (fun p => 1 + 1 + bytesLen p.2)).sum

/-- Embeds `def_cost_fragment_b`: definition cost summed over the other definitions. -/
def defCostFragment (m : List (List Char × List Char)) (fullVars : List (List Char)) : Nat :=
  ((m.filter (fun p => p.1 ∉ fullVars)).map (fun p => 1 + 1 + bytesLen p.2)).sum

/-- Embeds `net_savings_fragment = fragment_replaced_b - (def_cost_fragment_b + fragment_ref_cost_b)`. -/
def netSavingsFragment (st : V2State) : Int :=
  (st.fragment_replaced_b : Int) -
    ((defCostFragment st.defs st.fullVars : Int) + (st.fragment_ref_cost_b : Int))

/-- Embeds `net_savings_full = full_line_replaced_b - (def_cost_full_b + full_line_ref_cost_b)`. -/
def netSavingsFull (st : V2State) : Int :=
  (st.full_line_replaced_b : Int) -
    ((defCostFull st.defs st.fullVars : Int) + (st.full_line_ref_cost_b : Int))

/-- v2 total syntax overhead `H1 + H2 + H3 + H4`. -/
def overheadV2 (st : V2State) : Nat :=
  st.block_prefix_overhead_b + st.definition_at_overhead_b +
    st.total_reference_cost_b + st.literal_gap_overhead_b

/-- v1 total syntax overhead `H1 + H2 + H3 + H4`. -/
def overheadV1 (st : V1State) : Nat :=
  st.block_prefix_overhead_b + st.definition_at_overhead_b +
    st.command_at_overhead_b + st.literal_gap_overhead_b

/-- Embeds `overhead_percent = total_overhead / total_size_b * 100`. -/
def overheadPct (overhead total : Nat) : ℚ := (overhead : ℚ) / (total : ℚ) * 100

/-- Base58 alphabet of both source files (no `0`, `O`, `I`, `l`). -/
def BASE58_ALPHABET : List Char :=
  ("123456789ABCDEFGHJKLMNPQRSTUVWXYZabcdefghijkmnopqrstuvwxyz").toList

/-- Embeds `BASE58_MAP.get(char)`: index of a character in the alphabet. -/
def base58Index (c : Char) : Option Nat := BASE58_ALPHABET.findIdx? (fun x => x == c)

/-- The `for char in reversed(encoded)` accumulation loop; `none` models the
early `return -1` on an invalid character. -/
def decodeGo : List Char → Nat → Nat → Option Nat
  | [], dec, _ => some dec
  | c :: rest, dec, multi =>
    match base58Index c with
    | none => none
    | some d => decodeGo rest (dec + d * multi) (multi * 58)

/-- Embeds `decodeBase58` (identical in both source files).  The "not a
string" guard of the Python source is vacuous here because the input is
typed; the empty input and every invalid character yield the sentinel `-1`. -/
def decodeBase58 (encoded : List Char) : Int :=
  if encoded = [] then -1
  else
    match decodeGo encoded.reverse 0 1 with
    | none => -1
    | some v => (v : Int)

/-- The value the spec's words ascribe to a valid base58 string: sum over
positions-from-the-right of `index(char) * 58 ^ position`. -/
def base58SpecVal (encoded : List Char) : Nat :=
  ∑ i ∈ Finset.range encoded.length,
    ((base58Index (encoded.reverse.getD i ' ')).getD 0) * 58 ^ i

/-- Horner form of the base58 value of a (reversed, least-significant-first)
digit list; used to relate the accumulation loop to `base58SpecVal`. -/
def hornerB58 : List Char → Nat
  | [] => 0
  | c :: rest => (base58Index c).getD 0 + 58 * hornerB58 rest

/-! ### Byte-length lemmas -/

theorem one_le_charBytes (c : Char) : 1 ≤ charBytes c := by
  unfold charBytes
  by_cases h1 : c.val < 0x80 <;> by_cases h2 : c.val < 0x800 <;>
    by_cases h3 : c.val < 0x10000 <;> simp [h1, h2, h3]

@[simp] theorem bytesLen_nil : bytesLen [] = 0 := rfl

theorem bytesLen_cons (c : Char) (l : List Char) :
    bytesLen (c :: l) = charBytes c + bytesLen l := by
  simp [bytesLen]

theorem bytesLen_append (a b : List Char) :
    bytesLen (a ++ b) = bytesLen a + bytesLen b := by
  simp [bytesLen]

theorem length_le_bytesLen (l : List Char) : l.length ≤ bytesLen l := by
  induction l with
  | nil => simp
  | cons c t ih =>
    have := one_le_charBytes c
    simp only [bytesLen_cons, List.length_cons]
    omega

theorem one_le_bytesLen_of_ne_nil {l : List Char} (h : l ≠ []) : 1 ≤ bytesLen l := by
  cases l with
  | nil => exact absurd rfl h
  | cons c t =>
    have := one_le_charBytes c
    simp only [bytesLen_cons]
    omega

/-! ### Scanner unfolding lemmas -/

theorem findRefsF_adequate :
    ∀ (f : Nat) (l : List Char), l.length ≤ f → findRefsF f l = findRefsF l.length l := by
  intro f
  induction f using Nat.strong_induction_on with
  | _ f ih =>
    intro l hl
    cases f with
    | zero =>
      have : l = [] := List.length_eq_zero.mp (Nat.le_zero.mp hl)
      subst this; rfl
    | succ f =>
      cases l with
      | nil => rfl
      | cons c rest =>
        have hr : rest.length ≤ f := by
          simpa [Nat.succ_le_succ_iff] using hl
        have hdrop : (rest.dropWhile isWordChar).length ≤ rest.length :=
          (rest.dropWhile_sublist (p := isWordChar)).length_le
        simp only [List.length_cons, findRefsF]
        by_cases hat : c = '@'
        · by_cases hw : (rest.takeWhile isWordChar).isEmpty
          · simp only [hat, hw, ite_true]
            rw [ih f (Nat.lt_succ_self f) rest hr]
          · simp only [hat, hw, ite_true, ite_false]
            rw [ih f (Nat.lt_succ_self f) _ (le_trans hdrop hr),
              ih rest.length (Nat.lt_succ_of_le hr) _ hdrop]
            simp [hw]
        · simp only [hat, ite_false]
          rw [ih f (Nat.lt_succ_self f) rest hr]

theorem findRefs_cons (c : Char) (rest : List Char) :
    findRefs (c :: rest) =
      if c = '@' then
        if (rest.takeWhile isWordChar).isEmpty then findRefs rest
        else ('@' :: rest.takeWhile isWordChar) :: findRefs (rest.dropWhile isWordChar)
      else findRefs rest := by
  have hdrop : (rest.dropWhile isWordChar).length ≤ rest.length :=
    (rest.dropWhile_sublist (p := isWordChar)).length_le
  show findRefsF (rest.length + 1) (c :: rest) = _
  simp only [findRefsF]
  by_cases hat : c = '@'
  · by_cases hw : (rest.takeWhile isWordChar).isEmpty
    · simp only [hat, hw, ite_true]; rfl
    · simp only [hat, hw, ite_true, ite_false]
      rw [findRefsF_adequate rest.length (rest.dropWhile isWordChar) hdrop]
      rfl
  · simp only [hat, ite_false]; rfl

@[simp] theorem findRefs_nil : findRefs [] = [] := rfl

theorem findRefs_cons_ne {c : Char} (h : c ≠ '@') (rest : List Char) :
    findRefs (c :: rest) = findRefs rest := by
  rw [findRefs_cons]; simp [h]

theorem findRefs_append_no_at {u : List Char} (h : ∀ c ∈ u, c ≠ '@') (r : List Char) :
    findRefs (u ++ r) = findRefs r := by
  induction u with
  | nil => rfl
  | cons c t ih =>
    rw [List.cons_append, findRefs_cons_ne (h c (by simp)),
      ih (fun x hx => h x (by simp [hx]))]

theorem tail_length_le_of_dropWhile {p : Char → Bool} (rest : List Char) :
    (rest.dropWhile p).tail.length ≤ rest.length := by
  have h1 : (rest.dropWhile p).length ≤ rest.length :=
    (rest.dropWhile_sublist (p := p)).length_le
  have h2 : (rest.dropWhile p).tail.length ≤ (rest.dropWhile p).length := by
    cases rest.dropWhile p <;> simp
  omega

theorem findGapsF_adequate :
    ∀ (f : Nat) (l : List Char), l.length ≤ f → findGapsF f l = findGapsF l.length l := by
  intro f
  induction f using Nat.strong_induction_on with
  | _ f ih =>
    intro l hl
    cases f with
    | zero =>
      have : l = [] := List.length_eq_zero.mp (Nat.le_zero.mp hl)
      subst this; rfl
    | succ f =>
      cases l with
      | nil => rfl
      | cons c rest =>
        have hr : rest.length ≤ f := by
          simpa [Nat.succ_le_succ_iff] using hl
        have htl : (rest.dropWhile Char.isDigit).tail.length ≤ rest.length :=
          tail_length_le_of_dropWhile rest
        simp only [List.length_cons, findGapsF]
        by_cases hsh : c = '#'
        · by_cases hd : (rest.takeWhile Char.isDigit).isEmpty
          · simp only [hsh, hd, ite_true]
            rw [ih f (Nat.lt_succ_self f) rest hr]
          · by_cases hws : headIsWs (rest.dropWhile Char.isDigit)
            · simp only [hsh, hd, hws, ite_true, ite_false]
              rw [ih f (Nat.lt_succ_self f) _ (le_trans htl hr),
                ih rest.length (Nat.lt_succ_of_le hr) _ htl]
              simp [hd]
            · simp only [hsh, hd, hws, ite_true, ite_false]
              rw [ih f (Nat.lt_succ_self f) rest hr]
              simp [hd, hws]
        · simp only [hsh, ite_false]
          rw [ih f (Nat.lt_succ_self f) rest hr]

theorem findGaps_cons (c : Char) (rest : List Char) :
    findGaps (c :: rest) =
      if c = '#' then
        if (rest.takeWhile Char.isDigit).isEmpty then findGaps rest
        else if headIsWs (rest.dropWhile Char.isDigit) then
          (rest.takeWhile Char.isDigit) :: findGaps (rest.dropWhile Char.isDigit).tail
        else findGaps rest
      else findGaps rest := by
  have htl : (rest.dropWhile Char.isDigit).tail.length ≤ rest.length :=
    tail_length_le_of_dropWhile rest
  show findGapsF (rest.length + 1) (c :: rest) = _
  simp only [findGapsF]
  by_cases hsh : c = '#'
  · by_cases hd : (rest.takeWhile Char.isDigit).isEmpty
    · simp only [hsh, hd, ite_true]; rfl
    · by_cases hws : headIsWs (rest.dropWhile Char.isDigit)
      · simp only [hsh, hd, hws, ite_true, ite_false]
        rw [findGapsF_adequate rest.length (rest.dropWhile Char.isDigit).tail htl]
        rfl
      · simp only [hsh, hd, hws, ite_true, ite_false]; rfl
  · simp only [hsh, ite_false]; rfl

@[simp] theorem findGaps_nil : findGaps [] = [] := rfl

theorem findGaps_cons_ne {c : Char} (h : c ≠ '#') (rest : List Char) :
    findGaps (c :: rest) = findGaps rest := by
  rw [findGaps_cons]; simp [h]

theorem findGaps_append_no_hash {u : List Char} (h : ∀ c ∈ u, c ≠ '#') (r : List Char) :
    findGaps (u ++ r) = findGaps r := by
  induction u with
  | nil => rfl
  | cons c t ih =>
    rw [List.cons_append, findGaps_cons_ne (h c (by simp)),
      ih (fun x hx => h x (by simp [hx]))]

/-! ### Disjointness of the two scans, and the combined byte bound -/

theorem isWordChar_ne_at {c : Char} (h : isWordChar c = true) : c ≠ '@' := by
  intro hc; subst hc; exact absurd h (by decide)

theorem isWordChar_ne_hash {c : Char} (h : isWordChar c = true) : c ≠ '#' := by
  intro hc; subst hc; exact absurd h (by decide)

theorem isDigit_ne_at {c : Char} (h : c.isDigit = true) : c ≠ '@' := by
  intro hc; subst hc; exact absurd h (by decide)

theorem isPyWs_ne_at {c : Char} (h : isPyWs c = true) : c ≠ '@' := by
  intro hc; subst hc; exact absurd h (by decide)

theorem refBytesSum_cons (t : List Char) (ts : List (List Char)) :
    refBytesSum (t :: ts) = bytesLen t + refBytesSum ts := by
  simp [refBytesSum]

theorem refBytesSum_append (a b : List (List Char)) :
    refBytesSum (a ++ b) = refBytesSum a + refBytesSum b := by
  simp [refBytesSum]

theorem gapCharge_cons (g : List Char) (gs : List (List Char)) :
    gapCharge (g :: gs) = (2 + g.length) + gapCharge gs := by
  simp [gapCharge]

/-- Reference tokens and literal-gap headers occupy disjoint spans of a
scanned string (no `@` occurs in a gap header, no `#` in a reference token),
so the v2 H3 charge plus the H4 charge of one content string never exceeds
its byte length. -/
theorem refGap_bound :
    ∀ (n : Nat) (l : List Char), l.length ≤ n →
      refBytesSum (findRefs l) + gapCharge (findGaps l) ≤ bytesLen l := by
  intro n
  induction n with
  | zero =>
    intro l hl
    have : l = [] := List.length_eq_zero.mp (Nat.le_zero.mp hl)
    subst this; simp [refBytesSum, gapCharge]
  | succ n ih =>
    intro l hl
    cases l with
    | nil => simp [refBytesSum, gapCharge]
    | cons c rest =>
      have hr : rest.length ≤ n := by simpa [Nat.succ_le_succ_iff] using hl
      have hcb := one_le_charBytes c
      have hsplitW : rest.takeWhile isWordChar ++ rest.dropWhile isWordChar = rest :=
        List.takeWhile_append_dropWhile isWordChar rest
      have hsplitD : rest.takeWhile Char.isDigit ++ rest.dropWhile Char.isDigit = rest :=
        List.takeWhile_append_dropWhile Char.isDigit rest
      by_cases hat : c = '@'
      · subst hat
        rw [findGaps_cons_ne (by decide) rest]
        rw [findRefs_cons]
        simp only [ite_true, if_pos rfl]
        by_cases hw : (rest.takeWhile isWordChar).isEmpty
        · simp only [hw, ite_true]
          have := ih rest hr
          rw [bytesLen_cons]; omega
        · simp only [hw, ite_false, Bool.false_eq_true]
          have hgr : findGaps rest = findGaps (rest.dropWhile isWordChar) := by
            conv_lhs => rw [← hsplitW]
            exact findGaps_append_no_hash
              (fun x hx => isWordChar_ne_hash (List.mem_takeWhile_imp hx)) _
          rw [hgr, refBytesSum_cons]
          have hdlen : (rest.dropWhile isWordChar).length ≤ n :=
            le_trans (rest.dropWhile_sublist (p := isWordChar)).length_le hr
          have := ih (rest.dropWhile isWordChar) hdlen
          have hbytes : bytesLen rest =
              bytesLen (rest.takeWhile isWordChar) + bytesLen (rest.dropWhile isWordChar) := by
            conv_lhs => rw [← hsplitW]
            exact bytesLen_append _ _
          have hgoal : bytesLen ('@' :: rest) =
              charBytes '@' + (bytesLen (rest.takeWhile isWordChar) +
                bytesLen (rest.dropWhile isWordChar)) := by
            rw [bytesLen_cons, hbytes]
          rw [bytesLen_cons, hgoal]
          omega
      · rw [findRefs_cons_ne hat rest]
        by_cases hsh : c = '#'
        · subst hsh
          rw [findGaps_cons]
          simp only [ite_true, if_pos rfl]
          by_cases hd : (rest.takeWhile Char.isDigit).isEmpty
          · simp only [hd, ite_true]
            have := ih rest hr
            rw [bytesLen_cons]; omega
          · simp only [hd, ite_false, Bool.false_eq_true]
            by_cases hws : headIsWs (rest.dropWhile Char.isDigit)
            · simp only [hws, ite_true]
              cases hdw : rest.dropWhile Char.isDigit with
              | nil => rw [hdw] at hws; exact absurd hws (by simp [headIsWs])
              | cons w r2 =>
                have hwsw : isPyWs w = true := by
                  rw [hdw] at hws; simpa [headIsWs] using hws
                have hrr : findRefs rest = findRefs r2 := by
                  conv_lhs => rw [← hsplitD, hdw]
                  rw [findRefs_append_no_at
                    (fun x hx => isDigit_ne_at (List.mem_takeWhile_imp hx)) _]
                  exact findRefs_cons_ne (isPyWs_ne_at hwsw) r2
                have hbytes : bytesLen rest =
                    bytesLen (rest.takeWhile Char.isDigit) + charBytes w + bytesLen r2 := by
                  conv_lhs => rw [← hsplitD, hdw]
                  rw [bytesLen_append, bytesLen_cons]; omega
                have hr2 : r2.length ≤ n := by
                  have h1 : (rest.dropWhile Char.isDigit).length ≤ rest.length :=
                    (rest.dropWhile_sublist (p := Char.isDigit)).length_le
                  rw [hdw] at h1; simp at h1; omega
                have hlen : (rest.takeWhile Char.isDigit).length ≤
                    bytesLen (rest.takeWhile Char.isDigit) := length_le_bytesLen _
                have hwb := one_le_charBytes w
                have := ih r2 hr2
                have hgoal : bytesLen ('#' :: rest) =
                    charBytes '#' + (bytesLen (rest.takeWhile Char.isDigit) +
                      charBytes w + bytesLen r2) := by
                  rw [bytesLen_cons, hbytes]
                rw [gapCharge_cons, hrr, hgoal]
                simp only [List.tail_cons]
                omega
            · simp only [hws, ite_false, Bool.false_eq_true]
              have := ih rest hr
              rw [bytesLen_cons]; omega
        · rw [findGaps_cons_ne hsh rest]
          have := ih rest hr
          rw [bytesLen_cons]; omega

/-- Every reference token the scanner returns is a sigil followed by a
nonempty identifier. -/
theorem findRefs_shape :
    ∀ (n : Nat) (l : List Char), l.length ≤ n →
      ∀ t ∈ findRefs l, ∃ w, w ≠ [] ∧ t = '@' :: w := by
  intro n
  induction n with
  | zero =>
    intro l hl
    have : l = [] := List.length_eq_zero.mp (Nat.le_zero.mp hl)
    subst this; simp
  | succ n ih =>
    intro l hl
    cases l with
    | nil => simp
    | cons c rest =>
      have hr : rest.length ≤ n := by simpa [Nat.succ_le_succ_iff] using hl
      rw [findRefs_cons]
      by_cases hat : c = '@'
      · by_cases hw : (rest.takeWhile isWordChar).isEmpty
        · simp only [hat, hw, ite_true]
          exact ih rest hr
        · simp only [hat, hw, ite_true, ite_false, Bool.false_eq_true]
          intro t ht
          rcases List.mem_cons.mp ht with h | h
          · exact ⟨rest.takeWhile isWordChar, by simpa using hw, h⟩
          · exact ih (rest.dropWhile isWordChar)
              (le_trans (rest.dropWhile_sublist (p := isWordChar)).length_le hr) t h
      · simp only [hat, ite_false]
        exact ih rest hr

theorem findRefs_ne_nil (l : List Char) : ∀ t ∈ findRefs l, t ≠ [] := by
  intro t ht
  obtain ⟨w, -, hw⟩ := findRefs_shape l.length l (le_refl _) t ht
  simp [hw]

theorem length_le_refBytesSum (ts : List (List Char)) (h : ∀ t ∈ ts, t ≠ []) :
    ts.length ≤ refBytesSum ts := by
  induction ts with
  | nil => simp [refBytesSum]
  | cons t ts ih =>
    have h1 := one_le_bytesLen_of_ne_nil (h t (by simp))
    have h2 := ih (fun x hx => h x (by simp [hx]))
    rw [refBytesSum_cons]; simp only [List.length_cons]; omega

/-! ### State-machine helper lemmas -/

theorem v2ApplyRefs_invariant {α : Type} (g : V2State → α)
    (hg : ∀ d fv st tok, g (v2ApplyRef d fv st tok) = g st) :
    ∀ d fv toks st, g (v2ApplyRefs d fv st toks) = g st := by
  intro d fv toks
  induction toks with
  | nil => intro st; rfl
  | cons t ts ih =>
    intro st
    show g (v2ApplyRefs d fv (v2ApplyRef d fv st t) ts) = g st
    rw [ih, hg]

@[simp] theorem v2ApplyRefs_parsingDefs (d fv : _) (toks st : _) :
    (v2ApplyRefs d fv st toks).parsingDefs = st.parsingDefs :=
  v2ApplyRefs_invariant (fun s => s.parsingDefs) (fun _ _ _ _ => rfl) d fv toks st

@[simp] theorem v2ApplyRefs_inBlock (d fv : _) (toks st : _) :
    (v2ApplyRefs d fv st toks).inBlock = st.inBlock :=
  v2ApplyRefs_invariant (fun s => s.inBlock) (fun _ _ _ _ => rfl) d fv toks st

@[simp] theorem v2ApplyRefs_blockRem (d fv : _) (toks st : _) :
    (v2ApplyRefs d fv st toks).blockRem = st.blockRem :=
  v2ApplyRefs_invariant (fun s => s.blockRem) (fun _ _ _ _ => rfl) d fv toks st

@[simp] theorem v2ApplyRefs_kinds (d fv : _) (toks st : _) :
    (v2ApplyRefs d fv st toks).kinds = st.kinds :=
  v2ApplyRefs_invariant (fun s => s.kinds) (fun _ _ _ _ => rfl) d fv toks st

@[simp] theorem v2ApplyRefs_defs (d fv : _) (toks st : _) :
    (v2ApplyRefs d fv st toks).defs = st.defs :=
  v2ApplyRefs_invariant (fun s => s.defs) (fun _ _ _ _ => rfl) d fv toks st

@[simp] theorem v2ApplyRefs_defEvents (d fv : _) (toks st : _) :
    (v2ApplyRefs d fv st toks).defEvents = st.defEvents :=
  v2ApplyRefs_invariant (fun s => s.defEvents) (fun _ _ _ _ => rfl) d fv toks st

@[simp] theorem v2ApplyRefs_fullVars (d fv : _) (toks st : _) :
    (v2ApplyRefs d fv st toks).fullVars = st.fullVars :=
  v2ApplyRefs_invariant (fun s => s.fullVars) (fun _ _ _ _ => rfl) d fv toks st

@[simp] theorem v2ApplyRefs_fragVars (d fv : _) (toks st : _) :
    (v2ApplyRefs d fv st toks).fragVars = st.fragVars :=
  v2ApplyRefs_invariant (fun s => s.fragVars) (fun _ _ _ _ => rfl) d fv toks st

@[simp] theorem v2ApplyRefs_definition_size_b (d fv : _) (toks st : _) :
    (v2ApplyRefs d fv st toks).definition_size_b = st.definition_size_b :=
  v2ApplyRefs_invariant (fun s => s.definition_size_b) (fun _ _ _ _ => rfl) d fv toks st

@[simp] theorem v2ApplyRefs_definition_at_overhead_b (d fv : _) (toks st : _) :
    (v2ApplyRefs d fv st toks).definition_at_overhead_b = st.definition_at_overhead_b :=
  v2ApplyRefs_invariant (fun s => s.definition_at_overhead_b) (fun _ _ _ _ => rfl) d fv toks st

@[simp] theorem v2ApplyRefs_block_prefix_overhead_b (d fv : _) (toks st : _) :
    (v2ApplyRefs d fv st toks).block_prefix_overhead_b = st.block_prefix_overhead_b :=
  v2ApplyRefs_invariant (fun s => s.block_prefix_overhead_b) (fun _ _ _ _ => rfl) d fv toks st

@[simp] theorem v2ApplyRefs_literal_gap_overhead_b (d fv : _) (toks st : _) :
    (v2ApplyRefs d fv st toks).literal_gap_overhead_b = st.literal_gap_overhead_b :=
  v2ApplyRefs_invariant (fun s => s.literal_gap_overhead_b) (fun _ _ _ _ => rfl) d fv toks st

@[simp] theorem v2ApplyRefs_usages (d fv : _) (toks : _) :
    ∀ st, (v2ApplyRefs d fv st toks).usages = st.usages ++ toks := by
  induction toks with
  | nil => intro st; simp [v2ApplyRefs]
  | cons t ts ih =>
    intro st
    show (v2ApplyRefs d fv (v2ApplyRef d fv st t) ts).usages = _
    rw [ih]
    simp [v2ApplyRef]

@[simp] theorem v2ApplyRefs_refCost (d fv : _) (toks : _) :
    ∀ st, (v2ApplyRefs d fv st toks).total_reference_cost_b =
      st.total_reference_cost_b + refBytesSum toks := by
  induction toks with
  | nil => intro st; simp [v2ApplyRefs, refBytesSum]
  | cons t ts ih =>
    intro st
    show (v2ApplyRefs d fv (v2ApplyRef d fv st t) ts).total_reference_cost_b = _
    rw [ih]
    simp [v2ApplyRef, refBytesSum_cons]
    omega

/-! ### Step-characterization lemmas -/

theorem matchDef_head {l : List Char} {x : List Char × List Char}
    (h : matchDef l = some x) : ∃ rest, l = '@' :: rest := by
  cases l with
  | nil => simp [matchDef] at h
  | cons c rest =>
    refine ⟨rest, ?_⟩
    simp only [matchDef] at h
    by_cases hc : c = '@' ∧ rest.takeWhile isWordChar ≠ []
    · rw [hc.1]
    · rw [if_neg hc] at h; exact Option.noConfusion h

theorem matchDefNoContent_head {l : List Char} {x : List Char}
    (h : matchDefNoContent l = some x) : ∃ rest, l = '@' :: rest := by
  cases l with
  | nil => simp [matchDefNoContent] at h
  | cons c rest =>
    refine ⟨rest, ?_⟩
    simp only [matchDefNoContent] at h
    by_cases hc : c = '@' ∧ rest ≠ [] ∧ rest.all isWordChar
    · rw [hc.1]
    · rw [if_neg hc] at h; exact Option.noConfusion h

theorem header_none_of_head_at (rest : List Char) :
    matchBlockHeader ('@' :: rest) = none := by
  unfold matchBlockHeader
  rw [List.takeWhile_cons]
  simp [show isWordChar '@' = false by decide]

theorem cmd_false_of_head_at (rest : List Char) :
    matchCmd ('@' :: rest) = false := by
  unfold matchCmd
  rw [List.takeWhile_cons]
  simp [show isCmdIdChar '@' = false by decide]

theorem matchDef_not_header {l : List Char} {x : List Char × List Char}
    (h : matchDef l = some x) : matchBlockHeader l = none := by
  obtain ⟨rest, hr⟩ := matchDef_head h
  rw [hr]; exact header_none_of_head_at rest

theorem matchDef_not_cmd {l : List Char} {x : List Char × List Char}
    (h : matchDef l = some x) : matchCmd l = false := by
  obtain ⟨rest, hr⟩ := matchDef_head h
  rw [hr]; exact cmd_false_of_head_at rest

theorem matchDefNoContent_not_header {l : List Char} {x : List Char}
    (h : matchDefNoContent l = some x) : matchBlockHeader l = none := by
  obtain ⟨rest, hr⟩ := matchDefNoContent_head h
  rw [hr]; exact header_none_of_head_at rest

theorem matchDefNoContent_not_cmd {l : List Char} {x : List Char}
    (h : matchDefNoContent l = some x) : matchCmd l = false := by
  obtain ⟨rest, hr⟩ := matchDefNoContent_head h
  rw [hr]; exact cmd_false_of_head_at rest

theorem not_marker_of_header {l : List Char} {n : Nat}
    (h : matchBlockHeader l = some n) (first : Bool) :
    (first && l == ['~']) = false := by
  by_cases he : l = ['~']
  · rw [he] at h
    rw [show matchBlockHeader ['~'] = none by decide] at h
    exact Option.noConfusion h
  · cases first <;> simp [he]

theorem v2Step_marker {first : Bool} {l : List Char} (st : V2State)
    (h : (first && l == ['~']) = true) :
    v2Step first st l = v2DoMarker { st with total_lines := st.total_lines + 1 } := by
  unfold v2Step; simp [h]

theorem v2Step_def {first : Bool} {l vn c : List Char} (st : V2State)
    (hm : (first && l == ['~']) = false) (hp : st.parsingDefs = true)
    (hd : matchDef l = some (vn, c)) :
    v2Step first st l = v2DoDef { st with total_lines := st.total_lines + 1 }
      vn c (bytesLen l) := by
  unfold v2Step; simp [hm, hp, hd]

theorem v2Step_defEmpty {first : Bool} {l vn : List Char} (st : V2State)
    (hm : (first && l == ['~']) = false) (hp : st.parsingDefs = true)
    (hd : matchDef l = none) (he : matchDefNoContent l = some vn) :
    v2Step first st l = v2DoDefEmpty { st with total_lines := st.total_lines + 1 }
      vn (bytesLen l) := by
  unfold v2Step; simp [hm, hp, hd, he]

theorem v2Step_dispatch {first : Bool} {l : List Char} (st : V2State)
    (hm : (first && l == ['~']) = false)
    (hd : st.parsingDefs = true → matchDef l = none ∧ matchDefNoContent l = none) :
    v2Step first st l =
      v2Dispatch { st with total_lines := st.total_lines + 1, parsingDefs := false } l := by
  unfold v2Step
  by_cases hp : st.parsingDefs
  · obtain ⟨h1, h2⟩ := hd hp
    simp [hm, hp, h1, h2]
  · simp [hm, hp]

theorem v2Dispatch_body {l : List Char} (st : V2State) (hb : st.inBlock = true) :
    v2Dispatch st l = v2DoBody st l := by
  unfold v2Dispatch; simp [hb]

theorem v2Dispatch_header {l : List Char} {n : Nat} (st : V2State)
    (hb : st.inBlock = false) (hh : matchBlockHeader l = some n) :
    v2Dispatch st l = v2DoHeader st n (bytesLen l) := by
  unfold v2Dispatch; simp [hb, hh]

theorem v2Dispatch_cmd {l : List Char} (st : V2State)
    (hb : st.inBlock = false) (hh : matchBlockHeader l = none) (hc : matchCmd l = true) :
    v2Dispatch st l = v2DoCmd st l := by
  unfold v2Dispatch; simp [hb, hh, hc]

theorem v2Dispatch_other {l : List Char} (st : V2State)
    (hb : st.inBlock = false) (hh : matchBlockHeader l = none) (hc : matchCmd l = false) :
    v2Dispatch st l = v2DoOther st (bytesLen l) := by
  unfold v2Dispatch; simp [hb, hh, hc]

theorem v1Step_marker {first : Bool} {l : List Char} (st : V1State)
    (h : (first && l == ['~']) = true) :
    v1Step first st l = v1DoMarker { st with total_lines := st.total_lines + 1 } := by
  unfold v1Step; simp [h]

theorem v1Step_body {first : Bool} {l : List Char} (st : V1State)
    (hm : (first && l == ['~']) = false) (hb : st.inBlock = true) :
    v1Step first st l = v1DoBody { st with total_lines := st.total_lines + 1 } l := by
  unfold v1Step; simp [hm, hb]

theorem v1Step_def {first : Bool} {l vn c : List Char} (st : V1State)
    (hm : (first && l == ['~']) = false) (hb : st.inBlock = false)
    (hd : matchDef l = some (vn, c)) :
    v1Step first st l = v1DoDef { st with total_lines := st.total_lines + 1 }
      vn c (bytesLen l) := by
  unfold v1Step; simp [hm, hb, hd]

theorem v1Step_header {first : Bool} {l : List Char} {n : Nat} (st : V1State)
    (hm : (first && l == ['~']) = false) (hb : st.inBlock = false)
    (hd : matchDef l = none) (hh : matchBlockHeader l = some n) :
    v1Step first st l = v1DoHeader { st with total_lines := st.total_lines + 1 }
      n (bytesLen l) := by
  unfold v1Step; simp [hm, hb, hd, hh]

theorem v1Step_cmd {first : Bool} {l : List Char} (st : V1State)
    (hm : (first && l == ['~']) = false) (hb : st.inBlock = false)
    (hd : matchDef l = none) (hh : matchBlockHeader l = none) (hc : matchCmd l = true) :
    v1Step first st l = v1DoCmd { st with total_lines := st.total_lines + 1 } l := by
  unfold v1Step; simp [hm, hb, hd, hh, hc]

theorem v1Step_other {first : Bool} {l : List Char} (st : V1State)
    (hm : (first && l == ['~']) = false) (hb : st.inBlock = false)
    (hd : matchDef l = none) (hh : matchBlockHeader l = none) (hc : matchCmd l = false) :
    v1Step first st l = v1DoOther { st with total_lines := st.total_lines + 1 }
      (bytesLen l) := by
  unfold v1Step; simp [hm, hb, hd, hh, hc]

/-! ### Generic run-induction lemmas -/

theorem v2RunAux_invariant (P : V2State → Prop)
    (hstep : ∀ first st l, P st → P (v2Step first st l)) :
    ∀ ls st first, P st → P (v2RunAux st first ls) := by
  intro ls
  induction ls with
  | nil => intro st first h; exact h
  | cons l ls ih => intro st first h; exact ih _ _ (hstep first st l h)

theorem v1RunAux_invariant (P : V1State → Prop)
    (hstep : ∀ first st l, P st → P (v1Step first st l)) :
    ∀ ls st first, P st → P (v1RunAux st first ls) := by
  intro ls
  induction ls with
  | nil => intro st first h; exact h
  | cons l ls ih => intro st first h; exact ih _ _ (hstep first st l h)

theorem runAux_rel (R : V1State → V2State → Prop)
    (hstep : ∀ first s1 s2 l, R s1 s2 → R (v1Step first s1 l) (v2Step first s2 l)) :
    ∀ ls s1 s2 first, R s1 s2 → R (v1RunAux s1 first ls) (v2RunAux s2 first ls) := by
  intro ls
  induction ls with
  | nil => intro s1 s2 first h; exact h
  | cons l ls ih => intro s1 s2 first h; exact ih _ _ _ (hstep first s1 s2 l h)

/-! ### Dispatch preservation lemmas -/

theorem v2Dispatch_parsingDefs (st : V2State) (l : List Char) :
    (v2Dispatch st l).parsingDefs = st.parsingDefs := by
  unfold v2Dispatch; split
  · simp [v2DoBody, v2ScanLine]
  · split
    · simp [v2DoHeader]
    · split <;> simp [v2DoCmd, v2DoOther, v2ScanLine]

theorem v2Dispatch_defs (st : V2State) (l : List Char) :
    (v2Dispatch st l).defs = st.defs := by
  unfold v2Dispatch; split
  · simp [v2DoBody, v2ScanLine]
  · split
    · simp [v2DoHeader]
    · split <;> simp [v2DoCmd, v2DoOther, v2ScanLine]

theorem v2Dispatch_defEvents (st : V2State) (l : List Char) :
    (v2Dispatch st l).defEvents = st.defEvents := by
  unfold v2Dispatch; split
  · simp [v2DoBody, v2ScanLine]
  · split
    · simp [v2DoHeader]
    · split <;> simp [v2DoCmd, v2DoOther, v2ScanLine]

theorem v2Dispatch_fullVars (st : V2State) (l : List Char) :
    (v2Dispatch st l).fullVars = st.fullVars := by
  unfold v2Dispatch; split
  · simp [v2DoBody, v2ScanLine]
  · split
    · simp [v2DoHeader]
    · split <;> simp [v2DoCmd, v2DoOther, v2ScanLine]

theorem v2Dispatch_fragVars (st : V2State) (l : List Char) :
    (v2Dispatch st l).fragVars = st.fragVars := by
  unfold v2Dispatch; split
  · simp [v2DoBody, v2ScanLine]
  · split
    · simp [v2DoHeader]
    · split <;> simp [v2DoCmd, v2DoOther, v2ScanLine]

theorem v2Dispatch_definition_size_b (st : V2State) (l : List Char) :
    (v2Dispatch st l).definition_size_b = st.definition_size_b := by
  unfold v2Dispatch; split
  · simp [v2DoBody, v2ScanLine]
  · split
    · simp [v2DoHeader]
    · split <;> simp [v2DoCmd, v2DoOther, v2ScanLine]

theorem v2Dispatch_defnKinds (st : V2State) (l : List Char) :
    (v2Dispatch st l).kinds.filterMap defnOf = st.kinds.filterMap defnOf := by
  unfold v2Dispatch; split
  · simp [v2DoBody, v2ScanLine, defnOf]
  · split
    · simp [v2DoHeader, defnOf]
    · split <;> simp [v2DoCmd, v2DoOther, v2ScanLine, defnOf]

/-! ### Base58 lemmas (C9) -/

theorem decodeGo_none_iff :
    ∀ (l : List Char) (dec multi : Nat),
      decodeGo l dec multi = none ↔ ∃ c ∈ l, base58Index c = none := by
  intro l
  induction l with
  | nil => intro dec multi; simp [decodeGo]
  | cons c rest ih =>
    intro dec multi
    simp only [decodeGo]
    cases h : base58Index c with
    | none =>
      simp only [h]
      constructor
      · intro _; exact ⟨c, by simp, h⟩
      · intro _; trivial
    | some d =>
      simp only [h]
      rw [ih]
      constructor
      · rintro ⟨x, hx, hxn⟩; exact ⟨x, by simp [hx], hxn⟩
      · rintro ⟨x, hx, hxn⟩
        rcases List.mem_cons.mp hx with rfl | hx'
        · rw [h] at hxn; exact Option.noConfusion hxn
        · exact ⟨x, hx', hxn⟩

theorem decodeGo_valid :
    ∀ (l : List Char) (dec multi : Nat), (∀ c ∈ l, (base58Index c).isSome) →
      decodeGo l dec multi = some (dec + multi * hornerB58 l) := by
  intro l
  induction l with
  | nil => intro dec multi _; simp [decodeGo, hornerB58]
  | cons c rest ih =>
    intro dec multi hv
    have hc := hv c (by simp)
    cases h : base58Index c with
    | none => rw [h] at hc; simp at hc
    | some d =>
      simp only [decodeGo, h]
      rw [ih _ _ (fun x hx => hv x (by simp [hx]))]
      congr 1
      simp only [hornerB58, h, Option.getD_some]
      ring

theorem hornerB58_eq_sum :
    ∀ l : List Char,
      hornerB58 l =
        ∑ i ∈ Finset.range l.length, ((base58Index (l.getD i ' ')).getD 0) * 58 ^ i := by
  intro l
  induction l with
  | nil => simp [hornerB58]
  | cons c rest ih =>
    rw [hornerB58, ih, List.length_cons, Finset.sum_range_succ']
    simp only [List.getD_cons_succ, List.getD_cons_zero, pow_zero, mul_one, pow_succ,
      ← mul_assoc]
    rw [← Finset.sum_mul]
    ring

/-! ### Claim C9 -/

/-- C9: `decodeBase58` returns the sentinel `-1` exactly when the input is
empty or contains a character outside the 58-character alphabet (it never
raises; the "not a string" case is vacuous in a typed embedding), and on
every non-empty all-alphabet string it returns the sum, from the rightmost
character leftward, of `index(char) * 58 ^ (position from the right)`. -/
theorem C9_decodeBase58_spec (e : List Char) :
    (decodeBase58 e = -1 ↔ e = [] ∨ ∃ c ∈ e, base58Index c = none) ∧
    (e ≠ [] → (∀ c ∈ e, (base58Index c).isSome) →
      decodeBase58 e = (base58SpecVal e : Int)) := by
  constructor
  · constructor
    · intro h
      by_cases he : e = []
      · exact Or.inl he
      · right
        unfold decodeBase58 at h
        rw [if_neg he] at h
        cases hg : decodeGo e.reverse 0 1 with
        | none =>
          obtain ⟨c, hc, hcn⟩ := (decodeGo_none_iff e.reverse 0 1).mp hg
          exact ⟨c, List.mem_reverse.mp hc, hcn⟩
        | some v =>
          exfalso
          rw [hg] at h
          have h2 : ((v : Int) = -1) := h
          omega
    · intro h
      rcases h with rfl | ⟨c, hc, hcn⟩
      · rfl
      · unfold decodeBase58
        by_cases he : e = []
        · rw [if_pos he]
        · rw [if_neg he,
            (decodeGo_none_iff _ _ _).mpr ⟨c, List.mem_reverse.mpr hc, hcn⟩]
  · intro he hv
    unfold decodeBase58
    rw [if_neg he,
      decodeGo_valid e.reverse 0 1 (fun c hc => hv c (List.mem_reverse.mp hc))]
    simp only [Nat.zero_add, Nat.one_mul]
    rw [hornerB58_eq_sum, base58SpecVal, List.length_reverse]

/-- C9 witness: the theorem applied to the concrete string `"21"`,
whose value is `1 * 58 + 0 = 58`. -/
theorem C9_witness :
    (toL "21" ≠ [] ∧ (∀ c ∈ toL "21", (base58Index c).isSome)) ∧
    decodeBase58 (toL "21") = (base58SpecVal (toL "21") : Int) :=
  ⟨⟨by decide, by decide⟩,
    (C9_decodeBase58_spec (toL "21")).2 (by decide) (by decide)⟩

/-! ### Claim C1 -/

/-- C1 counterexample: on the file `@x hello\n1 A+ 1\na @x\n` the v2 analyzer
charges `len('@x'.encode()) = 2` bytes of H3 reference cost (not 3), so the
fragment net savings are `5 - (7 + 2) = -4` (not `-5`): the claim's stated
numbers are false on this input. -/
theorem C1_counterexample :
    (v2Run [toL "@x hello", toL "1 A+ 1", toL "a @x"]).total_reference_cost_b = 2 ∧
    netSavingsFragment (v2Run [toL "@x hello", toL "1 A+ 1", toL "a @x"]) = -4 ∧
    ¬((v2Run [toL "@x hello", toL "1 A+ 1", toL "a @x"]).total_reference_cost_b = 3 ∧
      netSavingsFragment (v2Run [toL "@x hello", toL "1 A+ 1", toL "a @x"]) = -5) := by
  refine ⟨by decide, by decide, ?_⟩
  intro h
  exact absurd h.1 (by decide)

/-- C1 amended: on `@x hello\n1 A+ 1\na @x\n` the v2 analyzer records exactly
one definition binding `@x` to `"hello"`, classifies it as a fragment
(5 characters, not > 5), counts 2 bytes of H1 block-prefix overhead, counts a
2-byte H3 reference cost for the single `@x` occurrence (the byte length of
the token `@x`), records 5 replaced bytes, and reports fragment net savings
`5 - (definition cost 7 + reference cost 2) = -4`. -/
theorem C1_amended :
    (v2Run [toL "@x hello", toL "1 A+ 1", toL "a @x"]).defs =
      [(toL "@x", toL "hello")] ∧
    (v2Run [toL "@x hello", toL "1 A+ 1", toL "a @x"]).defEvents =
      [(toL "@x", toL "hello", false)] ∧
    (v2Run [toL "@x hello", toL "1 A+ 1", toL "a @x"]).fragVars = [toL "@x"] ∧
    (v2Run [toL "@x hello", toL "1 A+ 1", toL "a @x"]).fullVars = [] ∧
    (v2Run [toL "@x hello", toL "1 A+ 1", toL "a @x"]).block_prefix_overhead_b = 2 ∧
    (v2Run [toL "@x hello", toL "1 A+ 1", toL "a @x"]).total_reference_cost_b = 2 ∧
    (v2Run [toL "@x hello", toL "1 A+ 1", toL "a @x"]).total_replaced_bytes = 5 ∧
    (v2Run [toL "@x hello", toL "1 A+ 1", toL "a @x"]).fragment_replaced_b = 5 ∧
    defCostFragment (v2Run [toL "@x hello", toL "1 A+ 1", toL "a @x"]).defs
      (v2Run [toL "@x hello", toL "1 A+ 1", toL "a @x"]).fullVars = 7 ∧
    (v2Run [toL "@x hello", toL "1 A+ 1", toL "a @x"]).fragment_ref_cost_b = 2 ∧
    netSavingsFragment (v2Run [toL "@x hello", toL "1 A+ 1", toL "a @x"]) = -4 := by
  decide

/-! ### Claim C3 -/

/-- Once the v2 definition phase is off, one step never records a definition
and leaves the definition table, journal, and recorded definition kinds
unchanged (and the phase stays off). -/
theorem v2Step_no_defs_of_not_parsing {first : Bool} {st : V2State} {l : List Char}
    (hp : st.parsingDefs = false) :
    (v2Step first st l).parsingDefs = false ∧
    (v2Step first st l).defs = st.defs ∧
    (v2Step first st l).defEvents = st.defEvents ∧
    (v2Step first st l).kinds.filterMap defnOf = st.kinds.filterMap defnOf := by
  by_cases hm : (first && l == ['~']) = true
  · rw [v2Step_marker st hm]
    simp [v2DoMarker, defnOf, hp]
  · have hm' : (first && l == ['~']) = false := by simpa using hm
    rw [v2Step_dispatch st hm' (fun h => by rw [hp] at h; exact absurd h (by simp))]
    refine ⟨?_, ?_, ?_, ?_⟩
    · rw [v2Dispatch_parsingDefs]
    · rw [v2Dispatch_defs]
    · rw [v2Dispatch_defEvents]
    · rw [v2Dispatch_defnKinds]

/-- C3 counterexample: for the v1 analyzer the claim fails: the first line
`foo` does not match the definition shape, yet the later line `@x hello` is
still recorded as a definition. -/
theorem C3_counterexample :
    matchDef (toL "foo") = none ∧ matchDefNoContent (toL "foo") = none ∧
    (v1Run [toL "foo", toL "@x hello"]).kinds =
      [LineKind.other, LineKind.defn (toL "@x") (toL "hello")] ∧
    (v1Run [toL "foo", toL "@x hello"]).defs = [(toL "@x", toL "hello")] := by
  decide

/-- C3 amended: for the v2 analyzer only: the first line (other than the
optional leading marker) that matches neither definition regex permanently
switches the definition phase off, and from any state with the phase off no
later line is ever recorded as a definition (the definition table, the
definition journal and the recorded definition kinds stay fixed).  The v1
analyzer, by contrast, records definition-shaped lines at any point outside
a block (see the counterexample). -/
theorem C3_amended :
    (∀ (first : Bool) (st : V2State) (l : List Char),
      st.parsingDefs = true → (first && l == ['~']) = false →
      matchDef l = none → matchDefNoContent l = none →
      (v2Step first st l).parsingDefs = false) ∧
    (∀ (ls : List (List Char)) (st : V2State) (first : Bool),
      st.parsingDefs = false →
      (v2RunAux st first ls).parsingDefs = false ∧
      (v2RunAux st first ls).defs = st.defs ∧
      (v2RunAux st first ls).defEvents = st.defEvents ∧
      (v2RunAux st first ls).kinds.filterMap defnOf = st.kinds.filterMap defnOf) := by
  constructor
  · intro first st l _ hm hd he
    rw [v2Step_dispatch st hm (fun _ => ⟨hd, he⟩), v2Dispatch_parsingDefs]
  · intro ls st first hp
    exact v2RunAux_invariant
      (fun x => x.parsingDefs = false ∧ x.defs = st.defs ∧ x.defEvents = st.defEvents ∧
        x.kinds.filterMap defnOf = st.kinds.filterMap defnOf)
      (fun f s l hP => by
        obtain ⟨h1, h2, h3, h4⟩ := @v2Step_no_defs_of_not_parsing f s l hP.1
        exact ⟨h1, h2.trans hP.2.1, h3.trans hP.2.2.1, h4.trans hP.2.2.2⟩)
      ls st first ⟨hp, rfl, rfl, rfl⟩

/-- C3 witness: the amended theorem applied after the concrete prefix
`foo` (which switches the v2 phase off): the definition-shaped line
`@x hello` is no longer recorded by v2. -/
theorem C3_witness :
    ((v2Step true v2Init (toL "foo")).parsingDefs = false ∧
      (toL "foo" ≠ ['~']) ∧ matchDef (toL "foo") = none ∧
      matchDefNoContent (toL "foo") = none) ∧
    (v2RunAux (v2Step true v2Init (toL "foo")) false [toL "@x hello"]).defEvents =
      (v2Step true v2Init (toL "foo")).defEvents := by
  refine ⟨⟨by decide, by decide, by decide, by decide⟩, ?_⟩
  exact (C3_amended.2 [toL "@x hello"] (v2Step true v2Init (toL "foo")) false
    (by decide)).2.2.1

/-! ### Association-list and set lemmas -/

theorem mem_addSet (s : List (List Char)) (x y : List Char) :
    x ∈ addSet s y ↔ x ∈ s ∨ x = y := by
  unfold addSet
  by_cases h : y ∈ s
  · rw [if_pos h]
    constructor
    · exact Or.inl
    · rintro (hx | rfl)
      · exact hx
      · exact h
  · rw [if_neg h]
    simp

theorem lastFilter_concat {α : Type} (p : α → Bool) (l : List α) (x : α) :
    ((l ++ [x]).filter p).getLast? =
      if p x then some x else (l.filter p).getLast? := by
  rw [List.filter_append]
  by_cases h : p x
  · simp [List.filter_cons, h, List.getLast?_concat]
  · simp [List.filter_cons, h]

theorem find?_filter_ne (m : List (List Char × List Char)) (k vn : List Char)
    (h : vn ≠ k) :
    (m.filter (fun p => !(p.1 == k))).find? (fun p => p.1 == vn) =
      m.find? (fun p => p.1 == vn) := by
  induction m with
  | nil => rfl
  | cons p m ih =>
    by_cases hk : (p.1 == k) = true
    · have hp1 : p.1 = k := by simpa using hk
      have hvn : (p.1 == vn) = false := by
        simp [hp1]
        exact fun he => h he.symm
      simp [List.filter_cons, hk, List.find?_cons, hvn, ih]
    · have hk' : (p.1 == k) = false := by simpa using hk
      by_cases hvn : (p.1 == vn) = true
      · simp [List.filter_cons, hk', List.find?_cons, hvn]
      · have hvn' : (p.1 == vn) = false := by simpa using hvn
        simp [List.filter_cons, hk', List.find?_cons, hvn', ih]

theorem lookupVar_insert (m : List (List Char × List Char)) (k c vn : List Char) :
    lookupVar (insertVar m k c) vn = if vn = k then some c else lookupVar m vn := by
  unfold lookupVar insertVar
  by_cases h : vn = k
  · subst h
    simp [List.find?_cons]
  · rw [if_neg h]
    have hk : (k == vn) = false := by
      simp
      exact fun he => h he.symm
    rw [List.find?_cons, hk]
    rw [find?_filter_ne m k vn h]

/-! ### Claim C2: classification of recorded definitions -/

theorem classifyFull_iff (c : List Char) :
    classifyFull c = true ↔
      (5 < c.length ∧ ((∃ d, c.head? = some d ∧ isPyWs d = true) ∨
        c.getLast? = some '}' ∨ c.getLast? = some ';')) := by
  cases c with
  | nil => simp [classifyFull, fullLineHeuristicMatch]
  | cons d t =>
    simp only [classifyFull, fullLineHeuristicMatch, Bool.and_eq_true, Bool.or_eq_true,
      decide_eq_true_eq, List.head?_cons, Option.some.injEq]
    constructor
    · rintro ⟨hlen, hmatch⟩
      refine ⟨hlen, ?_⟩
      rcases hmatch with hws | hlast
      · exact Or.inl ⟨d, rfl, hws⟩
      · cases hl : (d :: t).getLast? with
        | none => rw [hl] at hlast; exact absurd hlast (by simp)
        | some x =>
          rw [hl] at hlast
          simp only [Bool.or_eq_true, beq_iff_eq] at hlast
          rcases hlast with rfl | rfl
          · exact Or.inr (Or.inl rfl)
          · exact Or.inr (Or.inr rfl)
    · rintro ⟨hlen, h⟩
      refine ⟨hlen, ?_⟩
      rcases h with ⟨d', heq, hws⟩ | hlast | hlast
      · left; rw [← heq] at hws; exact hws
      · right; rw [hlast]; simp
      · right; rw [hlast]; simp

/-- Each step appends only definition events tagged by `classifyFull`. -/
theorem v2Step_events_class {first : Bool} {st : V2State} {l : List Char}
    (hP : ∀ e ∈ st.defEvents, e.2.2 = classifyFull e.2.1) :
    ∀ e ∈ (v2Step first st l).defEvents, e.2.2 = classifyFull e.2.1 := by
  by_cases hm : (first && l == ['~']) = true
  · rw [v2Step_marker st hm]; simpa [v2DoMarker] using hP
  · have hm' : (first && l == ['~']) = false := by simpa using hm
    by_cases hp : st.parsingDefs = true
    · cases hd : matchDef l with
      | some vc =>
        obtain ⟨vn, c⟩ := vc
        rw [v2Step_def st hm' hp hd]
        intro e he
        simp only [v2DoDef, List.mem_append, List.mem_singleton] at he
        rcases he with he | rfl
        · exact hP e he
        · rfl
      | none =>
        cases he' : matchDefNoContent l with
        | some vn =>
          rw [v2Step_defEmpty st hm' hp hd he']
          intro e he
          simp only [v2DoDefEmpty, List.mem_append, List.mem_singleton] at he
          rcases he with he | rfl
          · exact hP e he
          · rfl
        | none =>
          rw [v2Step_dispatch st hm' (fun _ => ⟨hd, he'⟩), v2Dispatch_defEvents]
          simpa using hP
    · rw [v2Step_dispatch st hm' (fun h => absurd h hp), v2Dispatch_defEvents]
      simpa using hP

theorem v2Run_events_class (lines : List (List Char)) :
    ∀ e ∈ (v2Run lines).defEvents, e.2.2 = classifyFull e.2.1 :=
  v2RunAux_invariant (fun x => ∀ e ∈ x.defEvents, e.2.2 = classifyFull e.2.1)
    (fun _ _ _ hP => v2Step_events_class hP) lines v2Init true (by simp [v2Init])

/-- One step preserves the correspondence between the two classification
buckets and the definition journal. -/
theorem v2Step_buckets {first : Bool} {st : V2State} {l : List Char}
    (hF : ∀ vn, vn ∈ st.fullVars ↔ ∃ c, (vn, c, true) ∈ st.defEvents)
    (hG : ∀ vn, vn ∈ st.fragVars ↔ ∃ c, (vn, c, false) ∈ st.defEvents) :
    (∀ vn, vn ∈ (v2Step first st l).fullVars ↔
      ∃ c, (vn, c, true) ∈ (v2Step first st l).defEvents) ∧
    (∀ vn, vn ∈ (v2Step first st l).fragVars ↔
      ∃ c, (vn, c, false) ∈ (v2Step first st l).defEvents) := by
  by_cases hm : (first && l == ['~']) = true
  · rw [v2Step_marker st hm]
    exact ⟨fun vn => hF vn, fun vn => hG vn⟩
  · have hm' : (first && l == ['~']) = false := by simpa using hm
    by_cases hp : st.parsingDefs = true
    · cases hd : matchDef l with
      | some vc =>
        obtain ⟨vn0, c0⟩ := vc
        rw [v2Step_def st hm' hp hd]
        constructor
        · intro vn
          simp only [v2DoDef, List.mem_append, List.mem_singleton, Prod.mk.injEq]
          by_cases hb : classifyFull c0 = true
          · rw [if_pos hb, mem_addSet]
            constructor
            · rintro (hin | rfl)
              · obtain ⟨c, hc⟩ := (hF vn).mp hin
                exact ⟨c, Or.inl hc⟩
              · exact ⟨c0, Or.inr (by simp [hb])⟩
            · rintro ⟨c, hc | h2⟩
              · exact Or.inl ((hF vn).mpr ⟨c, hc⟩)
              · exact Or.inr h2.1
          · have hb' : classifyFull c0 = false := by simpa using hb
            rw [if_neg hb]
            constructor
            · intro hin
              obtain ⟨c, hc⟩ := (hF vn).mp hin
              exact ⟨c, Or.inl hc⟩
            · rintro ⟨c, hc | h2⟩
              · exact (hF vn).mpr ⟨c, hc⟩
              · simp [hb'] at h2
        · intro vn
          simp only [v2DoDef, List.mem_append, List.mem_singleton, Prod.mk.injEq]
          by_cases hb : classifyFull c0 = true
          · rw [if_pos hb]
            constructor
            · intro hin
              obtain ⟨c, hc⟩ := (hG vn).mp hin
              exact ⟨c, Or.inl hc⟩
            · rintro ⟨c, hc | h2⟩
              · exact (hG vn).mpr ⟨c, hc⟩
              · simp [hb] at h2
          · rw [if_neg hb, mem_addSet]
            have hb' : classifyFull c0 = false := by simpa using hb
            constructor
            · rintro (hin | rfl)
              · obtain ⟨c, hc⟩ := (hG vn).mp hin
                exact ⟨c, Or.inl hc⟩
              · exact ⟨c0, Or.inr (by simp [hb'])⟩
            · rintro ⟨c, hc | h2⟩
              · exact Or.inl ((hG vn).mpr ⟨c, hc⟩)
              · exact Or.inr h2.1
      | none =>
        cases he' : matchDefNoContent l with
        | some vn0 =>
          rw [v2Step_defEmpty st hm' hp hd he']
          constructor
          · intro vn
            simp only [v2DoDefEmpty, List.mem_append, List.mem_singleton, Prod.mk.injEq]
            constructor
            · intro hin
              obtain ⟨c, hc⟩ := (hF vn).mp hin
              exact ⟨c, Or.inl hc⟩
            · rintro ⟨c, hc | h2⟩
              · exact (hF vn).mpr ⟨c, hc⟩
              · simp at h2
          · intro vn
            simp only [v2DoDefEmpty, List.mem_append, List.mem_singleton, Prod.mk.injEq,
              mem_addSet]
            constructor
            · rintro (hin | rfl)
              · obtain ⟨c, hc⟩ := (hG vn).mp hin
                exact ⟨c, Or.inl hc⟩
              · exact ⟨[], Or.inr (by simp)⟩
            · rintro ⟨c, hc | h2⟩
              · exact Or.inl ((hG vn).mpr ⟨c, hc⟩)
              · exact Or.inr h2.1
        | none =>
          rw [v2Step_dispatch st hm' (fun _ => ⟨hd, he'⟩)]
          rw [v2Dispatch_defEvents, v2Dispatch_fullVars, v2Dispatch_fragVars]
          exact ⟨fun vn => hF vn, fun vn => hG vn⟩
    · rw [v2Step_dispatch st hm' (fun h => absurd h hp)]
      rw [v2Dispatch_defEvents, v2Dispatch_fullVars, v2Dispatch_fragVars]
      exact ⟨fun vn => hF vn, fun vn => hG vn⟩

theorem v2Run_buckets (lines : List (List Char)) :
    (∀ vn, vn ∈ (v2Run lines).fullVars ↔
      ∃ c, (vn, c, true) ∈ (v2Run lines).defEvents) ∧
    (∀ vn, vn ∈ (v2Run lines).fragVars ↔
      ∃ c, (vn, c, false) ∈ (v2Run lines).defEvents) :=
  v2RunAux_invariant
    (fun x => (∀ vn, vn ∈ x.fullVars ↔ ∃ c, (vn, c, true) ∈ x.defEvents) ∧
      (∀ vn, vn ∈ x.fragVars ↔ ∃ c, (vn, c, false) ∈ x.defEvents))
    (fun _ _ _ hP => v2Step_buckets hP.1 hP.2) lines v2Init true
    (by simp [v2Init])

/-- C2: every definition the v2 analyzer records is classified full-line
exactly when its content has more than 5 characters and either starts with a
whitespace character or ends in `}` or `;`; otherwise (in particular for
empty content) it is classified as a fragment, and the two classification
buckets contain precisely the names with a so-classified recorded
definition. -/
theorem C2_classification (lines : List (List Char)) :
    (∀ e ∈ (v2Run lines).defEvents,
      (e.2.2 = true ↔
        (5 < e.2.1.length ∧ ((∃ d, e.2.1.head? = some d ∧ isPyWs d = true) ∨
          e.2.1.getLast? = some '}' ∨ e.2.1.getLast? = some ';'))) ∧
      (e.2.1 = [] → e.2.2 = false)) ∧
    (∀ vn, vn ∈ (v2Run lines).fullVars ↔
      ∃ c, (vn, c, true) ∈ (v2Run lines).defEvents) ∧
    (∀ vn, vn ∈ (v2Run lines).fragVars ↔
      ∃ c, (vn, c, false) ∈ (v2Run lines).defEvents) := by
  refine ⟨?_, (v2Run_buckets lines).1, (v2Run_buckets lines).2⟩
  intro e he
  have hcl := v2Run_events_class lines e he
  constructor
  · rw [hcl]
    exact classifyFull_iff e.2.1
  · intro hnil
    rw [hcl, hnil]
    rfl

/-- C2 witness: the theorem applied to the single-definition file
`@x hello`, whose recorded event is classified as a fragment. -/
theorem C2_witness :
    (toL "@x", toL "hello", false) ∈ (v2Run [toL "@x hello"]).defEvents ∧
    ((false : Bool) = true ↔
      (5 < (toL "hello").length ∧
        ((∃ d, (toL "hello").head? = some d ∧ isPyWs d = true) ∨
          (toL "hello").getLast? = some '}' ∨ (toL "hello").getLast? = some ';'))) :=
  ⟨by decide,
    ((C2_classification [toL "@x hello"]).1 (toL "@x", toL "hello", false)
      (by decide)).1⟩

/-! ### Claim C4: last write wins -/

theorem v2Step_lookup {first : Bool} {st : V2State} {l : List Char}
    (hP : ∀ vn, lookupVar st.defs vn =
      ((st.defEvents.filter (fun e => e.1 == vn)).getLast?).map (fun e => e.2.1)) :
    ∀ vn, lookupVar (v2Step first st l).defs vn =
      (((v2Step first st l).defEvents.filter (fun e => e.1 == vn)).getLast?).map
        (fun e => e.2.1) := by
  by_cases hm : (first && l == ['~']) = true
  · rw [v2Step_marker st hm]; exact hP
  · have hm' : (first && l == ['~']) = false := by simpa using hm
    by_cases hp : st.parsingDefs = true
    · cases hd : matchDef l with
      | some vc =>
        obtain ⟨vn0, c0⟩ := vc
        rw [v2Step_def st hm' hp hd]
        intro vn
        simp only [v2DoDef]
        rw [lookupVar_insert, lastFilter_concat]
        by_cases hv : vn = vn0
        · subst hv
          rw [if_pos rfl, if_pos (by simp)]
          rfl
        · rw [if_neg hv, if_neg (by simp; exact fun he => hv he.symm)]
          exact hP vn
      | none =>
        cases he' : matchDefNoContent l with
        | some vn0 =>
          rw [v2Step_defEmpty st hm' hp hd he']
          intro vn
          simp only [v2DoDefEmpty]
          rw [lookupVar_insert, lastFilter_concat]
          by_cases hv : vn = vn0
          · subst hv
            rw [if_pos rfl, if_pos (by simp)]
            rfl
          · rw [if_neg hv, if_neg (by simp; exact fun he => hv he.symm)]
            exact hP vn
        | none =>
          rw [v2Step_dispatch st hm' (fun _ => ⟨hd, he'⟩)]
          intro vn
          rw [v2Dispatch_defs, v2Dispatch_defEvents]
          exact hP vn
    · rw [v2Step_dispatch st hm' (fun h => absurd h hp)]
      intro vn
      rw [v2Dispatch_defs, v2Dispatch_defEvents]
      exact hP vn

theorem v2Run_lookup (lines : List (List Char)) :
    ∀ vn, lookupVar (v2Run lines).defs vn =
      (((v2Run lines).defEvents.filter (fun e => e.1 == vn)).getLast?).map
        (fun e => e.2.1) :=
  v2RunAux_invariant
    (fun x => ∀ vn, lookupVar x.defs vn =
      ((x.defEvents.filter (fun e => e.1 == vn)).getLast?).map (fun e => e.2.1))
    (fun _ _ _ hP => v2Step_lookup hP) lines v2Init true (fun vn => rfl)

theorem v1Step_lookup {first : Bool} {st : V1State} {l : List Char}
    (hP : ∀ vn, lookupVar st.defs vn =
      ((((st.kinds.filterMap defnOf)).filter (fun e => e.1 == vn)).getLast?).map
        (fun e => e.2)) :
    ∀ vn, lookupVar (v1Step first st l).defs vn =
      (((((v1Step first st l).kinds.filterMap defnOf)).filter
        (fun e => e.1 == vn)).getLast?).map (fun e => e.2) := by
  by_cases hm : (first && l == ['~']) = true
  · rw [v1Step_marker st hm]
    intro vn
    simpa [v1DoMarker, defnOf] using hP vn
  · have hm' : (first && l == ['~']) = false := by simpa using hm
    by_cases hb : st.inBlock = true
    · rw [v1Step_body st hm' hb]
      intro vn
      simpa [v1DoBody, v1ScanLine, defnOf] using hP vn
    · have hb' : st.inBlock = false := by simpa using hb
      cases hd : matchDef l with
      | some vc =>
        obtain ⟨vn0, c0⟩ := vc
        rw [v1Step_def st hm' hb' hd]
        intro vn
        simp only [v1DoDef, List.filterMap_append]
        rw [show (List.filterMap defnOf [LineKind.defn vn0 c0]) = [(vn0, c0)] from rfl]
        rw [lookupVar_insert, lastFilter_concat]
        by_cases hv : vn = vn0
        · subst hv
          rw [if_pos rfl, if_pos (by simp)]
          rfl
        · rw [if_neg hv, if_neg (by simp; exact fun he => hv he.symm)]
          exact hP vn
      | none =>
        cases hh : matchBlockHeader l with
        | some n =>
          rw [v1Step_header st hm' hb' hd hh]
          intro vn
          simpa [v1DoHeader, defnOf] using hP vn
        | none =>
          by_cases hc : matchCmd l = true
          · rw [v1Step_cmd st hm' hb' hd hh hc]
            intro vn
            simpa [v1DoCmd, v1ScanLine, defnOf] using hP vn
          · have hc' : matchCmd l = false := by simpa using hc
            rw [v1Step_other st hm' hb' hd hh hc']
            intro vn
            simpa [v1DoOther, defnOf] using hP vn

theorem v1Run_lookup (lines : List (List Char)) :
    ∀ vn, lookupVar (v1Run lines).defs vn =
      ((((v1Run lines).kinds.filterMap defnOf).filter (fun e => e.1 == vn)).getLast?).map
        (fun e => e.2) :=
  v1RunAux_invariant
    (fun x => ∀ vn, lookupVar x.defs vn =
      (((x.kinds.filterMap defnOf).filter (fun e => e.1 == vn)).getLast?).map
        (fun e => e.2))
    (fun _ _ _ hP => v1Step_lookup hP) lines v1Init true (fun vn => rfl)

/-- C4 counterexample: on `@x aaaaaa;\n@x hi\n` the v2 analyzer records two
definitions of `@x` with different classifications; at the end `@x` maps to
the last content `"hi"` (a fragment), yet `@x` is a member of BOTH
classification buckets, refuting "the id belongs to exactly one
classification bucket (the one matching the last definition's content)". -/
theorem C4_counterexample :
    toL "@x" ∈ (v2Run [toL "@x aaaaaa;", toL "@x hi"]).fullVars ∧
    toL "@x" ∈ (v2Run [toL "@x aaaaaa;", toL "@x hi"]).fragVars ∧
    lookupVar (v2Run [toL "@x aaaaaa;", toL "@x hi"]).defs (toL "@x") =
      some (toL "hi") ∧
    classifyFull (toL "hi") = false := by
  refine ⟨by decide, by decide, by decide, by decide⟩

/-- C4 amended: in both analyzers each reference id maps to exactly one
definition at the end of the analysis, the content of its LAST recorded
definition (last write wins), and redefinition never fails; but in v2 the id
belongs to every classification bucket matched by ANY of its recorded
definitions, so a reclassifying redefinition leaves it in both buckets. -/
theorem C4_amended :
    (∀ (lines : List (List Char)) (vn : List Char),
      lookupVar (v2Run lines).defs vn =
        (((v2Run lines).defEvents.filter (fun e => e.1 == vn)).getLast?).map
          (fun e => e.2.1)) ∧
    (∀ (lines : List (List Char)) (vn : List Char),
      (vn ∈ (v2Run lines).fullVars ↔ ∃ c, (vn, c, true) ∈ (v2Run lines).defEvents) ∧
      (vn ∈ (v2Run lines).fragVars ↔ ∃ c, (vn, c, false) ∈ (v2Run lines).defEvents)) ∧
    (∀ (lines : List (List Char)) (vn : List Char),
      lookupVar (v1Run lines).defs vn =
        ((((v1Run lines).kinds.filterMap defnOf).filter
          (fun e => e.1 == vn)).getLast?).map (fun e => e.2)) := by
  refine ⟨fun lines vn => v2Run_lookup lines vn, fun lines vn => ?_,
    fun lines vn => v1Run_lookup lines vn⟩
  exact ⟨(v2Run_buckets lines).1 vn, (v2Run_buckets lines).2 vn⟩

/-! ### Claim C5: block-region semantics -/

theorem matchBlockHeader_not_def {l : List Char} {n : Nat}
    (hh : matchBlockHeader l = some n) :
    matchDef l = none ∧ matchDefNoContent l = none := by
  constructor
  · cases hd : matchDef l with
    | none => rfl
    | some x => rw [matchDef_not_header hd] at hh; exact Option.noConfusion hh
  · cases hd : matchDefNoContent l with
    | none => rfl
    | some x => rw [matchDefNoContent_not_header hd] at hh; exact Option.noConfusion hh

theorem v2Step_header_effect {first : Bool} {st : V2State} {l : List Char} {n : Nat}
    (hb : st.inBlock = false) (hh : matchBlockHeader l = some n) :
    (v2Step first st l).blockRem = (n : Int) ∧
    (v2Step first st l).inBlock = decide (0 < n) ∧
    (v2Step first st l).parsingDefs = false ∧
    (v2Step first st l).kinds = st.kinds ++ [LineKind.header n] := by
  obtain ⟨hnd, hne⟩ := matchBlockHeader_not_def hh
  rw [v2Step_dispatch st (not_marker_of_header hh first) (fun _ => ⟨hnd, hne⟩)]
  rw [v2Dispatch_header _ (by simpa using hb) hh]
  simp [v2DoHeader]

theorem v2Step_body_effect {st : V2State} {l : List Char}
    (hb : st.inBlock = true) (hp : st.parsingDefs = false) :
    (v2Step false st l).blockRem = st.blockRem - 1 ∧
    (v2Step false st l).inBlock = (if st.blockRem - 1 = 0 then false else st.inBlock) ∧
    (v2Step false st l).parsingDefs = false ∧
    (v2Step false st l).kinds = st.kinds ++ [LineKind.body (stripPfx l)] := by
  have hm' : ((false && l == ['~']) = false) := rfl
  rw [v2Step_dispatch st hm' (fun h => by rw [hp] at h; exact absurd h (by simp))]
  rw [v2Dispatch_body _ (by simpa using hb)]
  simp [v2DoBody, v2ScanLine]

theorem v2RunAux_block_consume :
    ∀ (bs : List (List Char)) (st : V2State), st.inBlock = true →
      st.parsingDefs = false → st.blockRem = (bs.length : Int) → bs ≠ [] →
      (v2RunAux st false bs).inBlock = false ∧
      (v2RunAux st false bs).blockRem = 0 ∧
      (v2RunAux st false bs).parsingDefs = false ∧
      (v2RunAux st false bs).kinds =
        st.kinds ++ bs.map (fun l => LineKind.body (stripPfx l)) := by
  intro bs
  induction bs with
  | nil => intro st _ _ _ hne; exact absurd rfl hne
  | cons l ls ih =>
    intro st hb hp hr _
    obtain ⟨e1, e2, e3, e4⟩ := v2Step_body_effect (l := l) hb hp
    show (v2RunAux (v2Step false st l) false ls).inBlock = false ∧ _
    cases ls with
    | nil =>
      have hrem : st.blockRem - 1 = 0 := by
        rw [hr]; simp
      refine ⟨?_, ?_, ?_, ?_⟩
      · show (v2Step false st l).inBlock = false
        rw [e2, if_pos hrem]
      · show (v2Step false st l).blockRem = 0
        rw [e1, hrem]
      · exact e3
      · show (v2Step false st l).kinds = _
        rw [e4]; simp
    | cons l2 ls2 =>
      have hone : ¬(st.blockRem - 1 = 0) := by
        rw [hr]; simp [List.length_cons]
        omega
      have hb2 : (v2Step false st l).inBlock = true := by
        rw [e2, if_neg hone, hb]
      have hr2 : (v2Step false st l).blockRem = ((l2 :: ls2).length : Int) := by
        rw [e1, hr]; simp [List.length_cons]
      obtain ⟨r1, r2, r3, r4⟩ := ih (v2Step false st l) hb2 e3 hr2 (by simp)
      refine ⟨r1, r2, r3, ?_⟩
      show (v2RunAux (v2Step false st l) false (l2 :: ls2)).kinds = _
      rw [r4, e4]
      simp

theorem v2Step_blockInv {first : Bool} {st : V2State} {l : List Char}
    (h0 : 0 ≤ st.blockRem) (h1 : st.inBlock = true → 0 < st.blockRem) :
    0 ≤ (v2Step first st l).blockRem ∧
    ((v2Step first st l).inBlock = true → 0 < (v2Step first st l).blockRem) := by
  by_cases hm : (first && l == ['~']) = true
  · rw [v2Step_marker st hm]
    exact ⟨h0, h1⟩
  · have hm' : (first && l == ['~']) = false := by simpa using hm
    have hdisp : ∀ st' : V2State, st'.blockRem = st.blockRem → st'.inBlock = st.inBlock →
        0 ≤ (v2Dispatch st' l).blockRem ∧
        ((v2Dispatch st' l).inBlock = true → 0 < (v2Dispatch st' l).blockRem) := by
      intro st' hrm hib
      by_cases hb : st'.inBlock = true
      · rw [v2Dispatch_body st' hb]
        have hpos := h1 (by rw [← hib, hb])
        have eb : (v2DoBody st' l).blockRem = st'.blockRem - 1 := by
          simp [v2DoBody, v2ScanLine]
        have ei : (v2DoBody st' l).inBlock =
            (if st'.blockRem - 1 = 0 then false else st'.inBlock) := by
          simp [v2DoBody, v2ScanLine]
        constructor
        · rw [eb, hrm]; omega
        · intro hin
          rw [ei] at hin
          by_cases hz : st'.blockRem - 1 = 0
          · rw [if_pos hz] at hin; exact absurd hin (by simp)
          · rw [eb]; omega
      · have hb' : st'.inBlock = false := by simpa using hb
        cases hh : matchBlockHeader l with
        | some n =>
          rw [v2Dispatch_header st' hb' hh]
          constructor
          · simp [v2DoHeader]
          · intro hin
            simp only [v2DoHeader] at hin ⊢
            simp at hin
            exact_mod_cast Int.ofNat_lt.mpr hin
        | none =>
          by_cases hc : matchCmd l = true
          · rw [v2Dispatch_cmd st' hb' hh hc]
            have e1 : (v2DoCmd st' l).blockRem = st'.blockRem := by
              simp [v2DoCmd, v2ScanLine]
            have e2 : (v2DoCmd st' l).inBlock = st'.inBlock := by
              simp [v2DoCmd, v2ScanLine]
            rw [e1, e2, hrm, hib]
            exact ⟨h0, h1⟩
          · have hc' : matchCmd l = false := by simpa using hc
            rw [v2Dispatch_other st' hb' hh hc']
            simp only [v2DoOther]
            rw [hrm, hib]
            exact ⟨h0, h1⟩
    by_cases hp : st.parsingDefs = true
    · cases hd : matchDef l with
      | some vc =>
        obtain ⟨vn0, c0⟩ := vc
        rw [v2Step_def st hm' hp hd]
        exact ⟨h0, h1⟩
      | none =>
        cases he' : matchDefNoContent l with
        | some vn0 =>
          rw [v2Step_defEmpty st hm' hp hd he']
          exact ⟨h0, h1⟩
        | none =>
          rw [v2Step_dispatch st hm' (fun _ => ⟨hd, he'⟩)]
          exact hdisp _ rfl rfl
    · rw [v2Step_dispatch st hm' (fun h => absurd h hp)]
      exact hdisp _ rfl rfl

theorem v1Step_header_effect {first : Bool} {st : V1State} {l : List Char} {n : Nat}
    (hb : st.inBlock = false) (hh : matchBlockHeader l = some n) :
    (v1Step first st l).blockRem = (n : Int) ∧
    (v1Step first st l).inBlock = decide (0 < n) ∧
    (v1Step first st l).kinds = st.kinds ++ [LineKind.header n] := by
  obtain ⟨hnd, -⟩ := matchBlockHeader_not_def hh
  rw [v1Step_header st (not_marker_of_header hh first) hb hnd hh]
  simp [v1DoHeader]

theorem v1Step_body_effect {st : V1State} {l : List Char} (hb : st.inBlock = true) :
    (v1Step false st l).blockRem = st.blockRem - 1 ∧
    (v1Step false st l).inBlock = (if st.blockRem - 1 = 0 then false else st.inBlock) ∧
    (v1Step false st l).kinds = st.kinds ++ [LineKind.body (stripPfx l)] := by
  have hm' : ((false && l == ['~']) = false) := rfl
  rw [v1Step_body st hm' hb]
  simp [v1DoBody, v1ScanLine]

theorem v1RunAux_block_consume :
    ∀ (bs : List (List Char)) (st : V1State), st.inBlock = true →
      st.blockRem = (bs.length : Int) → bs ≠ [] →
      (v1RunAux st false bs).inBlock = false ∧
      (v1RunAux st false bs).blockRem = 0 ∧
      (v1RunAux st false bs).kinds =
        st.kinds ++ bs.map (fun l => LineKind.body (stripPfx l)) := by
  intro bs
  induction bs with
  | nil => intro st _ _ hne; exact absurd rfl hne
  | cons l ls ih =>
    intro st hb hr _
    obtain ⟨e1, e2, e3⟩ := v1Step_body_effect (l := l) hb
    show (v1RunAux (v1Step false st l) false ls).inBlock = false ∧ _
    cases ls with
    | nil =>
      have hrem : st.blockRem - 1 = 0 := by rw [hr]; simp
      refine ⟨?_, ?_, ?_⟩
      · show (v1Step false st l).inBlock = false
        rw [e2, if_pos hrem]
      · show (v1Step false st l).blockRem = 0
        rw [e1, hrem]
      · show (v1Step false st l).kinds = _
        rw [e3]; simp
    | cons l2 ls2 =>
      have hone : ¬(st.blockRem - 1 = 0) := by
        rw [hr]; simp [List.length_cons]
        omega
      have hb2 : (v1Step false st l).inBlock = true := by
        rw [e2, if_neg hone, hb]
      have hr2 : (v1Step false st l).blockRem = ((l2 :: ls2).length : Int) := by
        rw [e1, hr]; simp [List.length_cons]
      obtain ⟨r1, r2, r3⟩ := ih (v1Step false st l) hb2 hr2 (by simp)
      refine ⟨r1, r2, ?_⟩
      show (v1RunAux (v1Step false st l) false (l2 :: ls2)).kinds = _
      rw [r3, e3]
      simp

theorem v1Step_blockInv {first : Bool} {st : V1State} {l : List Char}
    (h0 : 0 ≤ st.blockRem) (h1 : st.inBlock = true → 0 < st.blockRem) :
    0 ≤ (v1Step first st l).blockRem ∧
    ((v1Step first st l).inBlock = true → 0 < (v1Step first st l).blockRem) := by
  by_cases hm : (first && l == ['~']) = true
  · rw [v1Step_marker st hm]
    exact ⟨h0, h1⟩
  · have hm' : (first && l == ['~']) = false := by simpa using hm
    by_cases hb : st.inBlock = true
    · rw [v1Step_body st hm' hb]
      have hpos := h1 hb
      have eb : (v1DoBody { st with total_lines := st.total_lines + 1 } l).blockRem =
          st.blockRem - 1 := by
        simp [v1DoBody, v1ScanLine]
      have ei : (v1DoBody { st with total_lines := st.total_lines + 1 } l).inBlock =
          (if st.blockRem - 1 = 0 then false else st.inBlock) := by
        simp [v1DoBody, v1ScanLine]
      constructor
      · rw [eb]; omega
      · intro hin
        rw [ei] at hin
        by_cases hz : st.blockRem - 1 = 0
        · rw [if_pos hz] at hin; exact absurd hin (by simp)
        · rw [eb]; omega
    · have hb' : st.inBlock = false := by simpa using hb
      cases hd : matchDef l with
      | some vc =>
        obtain ⟨vn0, c0⟩ := vc
        rw [v1Step_def st hm' hb' hd]
        exact ⟨h0, h1⟩
      | none =>
        cases hh : matchBlockHeader l with
        | some n =>
          rw [v1Step_header st hm' hb' hd hh]
          constructor
          · simp [v1DoHeader]
          · intro hin
            simp only [v1DoHeader] at hin ⊢
            simp at hin
            exact_mod_cast Int.ofNat_lt.mpr hin
        | none =>
          by_cases hc : matchCmd l = true
          · rw [v1Step_cmd st hm' hb' hd hh hc]
            simp only [v1DoCmd, v1ScanLine]
            exact ⟨h0, h1⟩
          · have hc' : matchCmd l = false := by simpa using hc
            rw [v1Step_other st hm' hb' hd hh hc']
            simp only [v1DoOther]
            exact ⟨h0, h1⟩

/-- C5: in both analyzers a block-header line seen outside a block sets the
remaining count to its declared `N` and opens a block exactly when `N > 0`
(a zero count leaves the classifier at top level, so the next line is parsed
as a fresh top-level line); a block with `N > 0` remaining then consumes
exactly the next `N` lines as block-body lines regardless of their shape and
closes (returns to top level) right after the `N`-th; and the remaining
count is never negative after processing any prefix of any file. -/
theorem C5_blocks :
    (∀ (first : Bool) (st : V2State) (l : List Char) (n : Nat),
      st.inBlock = false → matchBlockHeader l = some n →
      (v2Step first st l).blockRem = (n : Int) ∧
      (v2Step first st l).inBlock = decide (0 < n)) ∧
    (∀ (bs : List (List Char)) (st : V2State),
      st.inBlock = true → st.parsingDefs = false →
      st.blockRem = (bs.length : Int) → bs ≠ [] →
      (v2RunAux st false bs).inBlock = false ∧
      (v2RunAux st false bs).blockRem = 0 ∧
      (v2RunAux st false bs).kinds =
        st.kinds ++ bs.map (fun l => LineKind.body (stripPfx l))) ∧
    (∀ lines : List (List Char), 0 ≤ (v2Run lines).blockRem) ∧
    (∀ (first : Bool) (st : V1State) (l : List Char) (n : Nat),
      st.inBlock = false → matchBlockHeader l = some n →
      (v1Step first st l).blockRem = (n : Int) ∧
      (v1Step first st l).inBlock = decide (0 < n)) ∧
    (∀ (bs : List (List Char)) (st : V1State),
      st.inBlock = true → st.blockRem = (bs.length : Int) → bs ≠ [] →
      (v1RunAux st false bs).inBlock = false ∧
      (v1RunAux st false bs).blockRem = 0 ∧
      (v1RunAux st false bs).kinds =
        st.kinds ++ bs.map (fun l => LineKind.body (stripPfx l))) ∧
    (∀ lines : List (List Char), 0 ≤ (v1Run lines).blockRem) := by
  refine ⟨?_, ?_, ?_, ?_, ?_, ?_⟩
  · intro first st l n hb hh
    obtain ⟨e1, e2, -, -⟩ := @v2Step_header_effect first st l n hb hh
    exact ⟨e1, e2⟩
  · intro bs st hb hp hr hne
    obtain ⟨r1, r2, -, r4⟩ := v2RunAux_block_consume bs st hb hp hr hne
    exact ⟨r1, r2, r4⟩
  · intro lines
    exact (v2RunAux_invariant
      (fun x => 0 ≤ x.blockRem ∧ (x.inBlock = true → 0 < x.blockRem))
      (fun _ _ _ hP => v2Step_blockInv hP.1 hP.2) lines v2Init true
      ⟨le_refl 0, fun h => absurd h (by simp [v2Init])⟩).1
  · intro first st l n hb hh
    obtain ⟨e1, e2, -⟩ := @v1Step_header_effect first st l n hb hh
    exact ⟨e1, e2⟩
  · exact v1RunAux_block_consume
  · intro lines
    exact (v1RunAux_invariant
      (fun x => 0 ≤ x.blockRem ∧ (x.inBlock = true → 0 < x.blockRem))
      (fun _ _ _ hP => v1Step_blockInv hP.1 hP.2) lines v1Init true
      ⟨le_refl 0, fun h => absurd h (by simp [v1Init])⟩).1

/-- C5 witness: the theorem instantiated on concrete states and lines: a
`1 A+ 0` header at top level opens nothing, and a one-line block
`{inBlock := true, blockRem := 1}` consumes exactly the next line. -/
theorem C5_witness :
    (v2Init.inBlock = false ∧ matchBlockHeader (toL "1 A+ 0") = some 0 ∧
      (v2Step true v2Init (toL "1 A+ 0")).blockRem = ((0 : Nat) : Int) ∧
      (v2Step true v2Init (toL "1 A+ 0")).inBlock = decide (0 < 0)) ∧
    (({ v2Init with inBlock := true, blockRem := 1, parsingDefs := false } : V2State).inBlock = true ∧
      (v2RunAux ({ v2Init with inBlock := true, blockRem := 1, parsingDefs := false } : V2State)
        false [toL "zzz"]).inBlock = false) ∧
    0 ≤ (v1Run [toL "1 A+ 1", toL "x"]).blockRem := by
  refine ⟨⟨by decide, by decide, ?_, ?_⟩, ⟨by decide, ?_⟩, ?_⟩
  · exact (C5_blocks.1 true v2Init (toL "1 A+ 0") 0 (by decide) (by decide)).1
  · exact (C5_blocks.1 true v2Init (toL "1 A+ 0") 0 (by decide) (by decide)).2
  · exact (C5_blocks.2.1 [toL "zzz"]
      ({ v2Init with inBlock := true, blockRem := 1, parsingDefs := false } : V2State)
      (by decide) (by decide) (by decide) (by decide)).1
  · exact C5_blocks.2.2.2.2.2 [toL "1 A+ 1", toL "x"]

/-! ### Claim C7: stray variables and dead weight -/

theorem matchDef_bytes {l vn c : List Char} (h : matchDef l = some (vn, c)) :
    2 + bytesLen c ≤ bytesLen l := by
  cases l with
  | nil => simp [matchDef] at h
  | cons ch rest =>
    simp only [matchDef] at h
    by_cases hc : ch = '@' ∧ rest.takeWhile isWordChar ≠ []
    · rw [if_pos hc] at h
      cases hdw : rest.dropWhile isWordChar with
      | nil => rw [hdw] at h; exact Option.noConfusion h
      | cons s content =>
        rw [hdw] at h
        dsimp only at h
        by_cases hws : isPyWs s = true
        · rw [if_pos hws, Option.some.injEq, Prod.mk.injEq] at h
          obtain ⟨-, h2⟩ := h
          subst h2
          have hsplit : rest.takeWhile isWordChar ++ rest.dropWhile isWordChar = rest :=
            List.takeWhile_append_dropWhile isWordChar rest
          have hbytes : bytesLen (ch :: rest) =
              charBytes ch + (bytesLen (rest.takeWhile isWordChar) +
                (charBytes s + bytesLen content)) := by
            rw [bytesLen_cons]
            conv_lhs => rw [← hsplit, hdw]
            rw [bytesLen_append, bytesLen_cons]
          have h1 := one_le_charBytes ch
          have h2 := one_le_charBytes s
          have h3 := one_le_bytesLen_of_ne_nil hc.2
          omega
        · rw [if_neg hws] at h; exact Option.noConfusion h
    · rw [if_neg hc] at h; exact Option.noConfusion h

theorem matchDefNoContent_bytes {l vn : List Char} (h : matchDefNoContent l = some vn) :
    2 ≤ bytesLen l := by
  cases l with
  | nil => simp [matchDefNoContent] at h
  | cons ch rest =>
    simp only [matchDefNoContent] at h
    by_cases hc : ch = '@' ∧ rest ≠ [] ∧ rest.all isWordChar
    · have h1 := one_le_charBytes ch
      have h2 := one_le_bytesLen_of_ne_nil hc.2.1
      rw [bytesLen_cons]
      omega
    · rw [if_neg hc] at h; exact Option.noConfusion h

theorem defsSum_insert_le (m : List (List Char × List Char)) (k c : List Char) :
    defsSum (insertVar m k c) ≤ (2 + bytesLen c) + defsSum m := by
  unfold defsSum insertVar
  rw [List.map_cons, List.sum_cons]
  dsimp only
  have hsub : ((m.filter (fun p => !(p.1 == k))).map
      (fun p => 1 + 1 + bytesLen p.2)).Sublist
      (m.map (fun p => 1 + 1 + bytesLen p.2)) :=
    (List.filter_sublist m).map _
  have := List.Sublist.sum_le_sum hsub (by simp)
  omega

theorem v2Step_defsSum {first : Bool} {st : V2State} {l : List Char}
    (hP : defsSum st.defs ≤ st.definition_size_b) :
    defsSum (v2Step first st l).defs ≤ (v2Step first st l).definition_size_b := by
  by_cases hm : (first && l == ['~']) = true
  · rw [v2Step_marker st hm]; exact hP
  · have hm' : (first && l == ['~']) = false := by simpa using hm
    by_cases hp : st.parsingDefs = true
    · cases hd : matchDef l with
      | some vc =>
        obtain ⟨vn0, c0⟩ := vc
        rw [v2Step_def st hm' hp hd]
        have h1 := defsSum_insert_le st.defs vn0 c0
        have h2 := matchDef_bytes hd
        simp only [v2DoDef]
        omega
      | none =>
        cases he' : matchDefNoContent l with
        | some vn0 =>
          rw [v2Step_defEmpty st hm' hp hd he']
          have h1 := defsSum_insert_le st.defs vn0 []
          have h2 := matchDefNoContent_bytes he'
          simp only [v2DoDefEmpty]
          simp only [bytesLen_nil] at h1
          omega
        | none =>
          rw [v2Step_dispatch st hm' (fun _ => ⟨hd, he'⟩)]
          rw [v2Dispatch_defs, v2Dispatch_definition_size_b]
          exact hP
    · rw [v2Step_dispatch st hm' (fun h => absurd h hp)]
      rw [v2Dispatch_defs, v2Dispatch_definition_size_b]
      exact hP

theorem v1Step_defsSum {first : Bool} {st : V1State} {l : List Char}
    (hP : defsSum st.defs ≤ st.definition_size_b) :
    defsSum (v1Step first st l).defs ≤ (v1Step first st l).definition_size_b := by
  by_cases hm : (first && l == ['~']) = true
  · rw [v1Step_marker st hm]; exact hP
  · have hm' : (first && l == ['~']) = false := by simpa using hm
    by_cases hb : st.inBlock = true
    · rw [v1Step_body st hm' hb]
      simpa [v1DoBody, v1ScanLine] using hP
    · have hb' : st.inBlock = false := by simpa using hb
      cases hd : matchDef l with
      | some vc =>
        obtain ⟨vn0, c0⟩ := vc
        rw [v1Step_def st hm' hb' hd]
        have h1 := defsSum_insert_le st.defs vn0 c0
        have h2 := matchDef_bytes hd
        simp only [v1DoDef]
        omega
      | none =>
        cases hh : matchBlockHeader l with
        | some n =>
          rw [v1Step_header st hm' hb' hd hh]
          simpa [v1DoHeader] using hP
        | none =>
          by_cases hc : matchCmd l = true
          · rw [v1Step_cmd st hm' hb' hd hh hc]
            simpa [v1DoCmd, v1ScanLine] using hP
          · have hc' : matchCmd l = false := by simpa using hc
            rw [v1Step_other st hm' hb' hd hh hc']
            simpa [v1DoOther] using hP

theorem insertVar_keys_nodup {m : List (List Char × List Char)} {k c : List Char}
    (h : (m.map Prod.fst).Nodup) : ((insertVar m k c).map Prod.fst).Nodup := by
  unfold insertVar
  rw [List.map_cons]
  refine List.nodup_cons.mpr ⟨?_, ?_⟩
  · intro hk
    obtain ⟨p, hp, hpk⟩ := List.mem_map.mp hk
    obtain ⟨-, hfp⟩ := List.mem_filter.mp hp
    rw [hpk] at hfp
    simp at hfp
  · exact h.sublist ((List.filter_sublist m).map Prod.fst)

theorem v2Step_keysNodup {first : Bool} {st : V2State} {l : List Char}
    (hP : (st.defs.map Prod.fst).Nodup) :
    ((v2Step first st l).defs.map Prod.fst).Nodup := by
  by_cases hm : (first && l == ['~']) = true
  · rw [v2Step_marker st hm]; exact hP
  · have hm' : (first && l == ['~']) = false := by simpa using hm
    by_cases hp : st.parsingDefs = true
    · cases hd : matchDef l with
      | some vc =>
        obtain ⟨vn0, c0⟩ := vc
        rw [v2Step_def st hm' hp hd]
        exact insertVar_keys_nodup hP
      | none =>
        cases he' : matchDefNoContent l with
        | some vn0 =>
          rw [v2Step_defEmpty st hm' hp hd he']
          exact insertVar_keys_nodup hP
        | none =>
          rw [v2Step_dispatch st hm' (fun _ => ⟨hd, he'⟩), v2Dispatch_defs]
          exact hP
    · rw [v2Step_dispatch st hm' (fun h => absurd h hp), v2Dispatch_defs]
      exact hP

theorem v1Step_keysNodup {first : Bool} {st : V1State} {l : List Char}
    (hP : (st.defs.map Prod.fst).Nodup) :
    ((v1Step first st l).defs.map Prod.fst).Nodup := by
  by_cases hm : (first && l == ['~']) = true
  · rw [v1Step_marker st hm]; exact hP
  · have hm' : (first && l == ['~']) = false := by simpa using hm
    by_cases hb : st.inBlock = true
    · rw [v1Step_body st hm' hb]
      simpa [v1DoBody, v1ScanLine] using hP
    · have hb' : st.inBlock = false := by simpa using hb
      cases hd : matchDef l with
      | some vc =>
        obtain ⟨vn0, c0⟩ := vc
        rw [v1Step_def st hm' hb' hd]
        exact insertVar_keys_nodup hP
      | none =>
        cases hh : matchBlockHeader l with
        | some n =>
          rw [v1Step_header st hm' hb' hd hh]
          simpa [v1DoHeader] using hP
        | none =>
          by_cases hc : matchCmd l = true
          · rw [v1Step_cmd st hm' hb' hd hh hc]
            simpa [v1DoCmd, v1ScanLine] using hP
          · have hc' : matchCmd l = false := by simpa using hc
            rw [v1Step_other st hm' hb' hd hh hc']
            simpa [v1DoOther] using hP

theorem lookupVar_cons (p : List Char × List Char) (m : List (List Char × List Char))
    (k : List Char) :
    lookupVar (p :: m) k = if (p.1 == k) = true then some p.2 else lookupVar m k := by
  unfold lookupVar
  rw [List.find?_cons]
  by_cases h : (p.1 == k) = true
  · simp [h]
  · have h' : (p.1 == k) = false := by simpa using h
    simp [h']

/-- For a table with distinct keys, summing a per-key cost over any sub-run
of the key list is bounded by the total definition cost. -/
theorem keyCost_le_defsSum :
    ∀ (m : List (List Char × List Char)) (q : List Char → Bool),
      ((m.map Prod.fst).Nodup) →
      ((((m.map Prod.fst).filter q).map
        (fun k => 1 + 1 + bytesLen ((lookupVar m k).getD []))).sum) ≤ defsSum m := by
  intro m
  induction m with
  | nil => intro q _; simp [defsSum]
  | cons p m ih =>
    intro q hnd
    rw [List.map_cons] at hnd
    obtain ⟨hnotin, hnd'⟩ := List.nodup_cons.mp hnd
    have hmap : ∀ k ∈ (m.map Prod.fst).filter q,
        (fun k => 1 + 1 + bytesLen ((lookupVar (p :: m) k).getD [])) k =
        (fun k => 1 + 1 + bytesLen ((lookupVar m k).getD [])) k := by
      intro k hk
      obtain ⟨hkm, -⟩ := List.mem_filter.mp hk
      have hne : (p.1 == k) = false := by
        simp only [beq_eq_false_iff_ne, ne_eq]
        intro he
        rw [he] at hnotin
        exact hnotin hkm
      simp only [lookupVar_cons, hne]
      simp
    have hsum : defsSum (p :: m) = (1 + 1 + bytesLen p.2) + defsSum m := by
      simp [defsSum]
    rw [List.map_cons, List.filter_cons]
    by_cases hq : q p.1 = true
    · rw [if_pos hq, List.map_cons, List.sum_cons]
      rw [List.map_congr_left hmap]
      have hhead : (lookupVar (p :: m) p.1).getD [] = p.2 := by
        rw [lookupVar_cons, if_pos (by simp)]
        rfl
      rw [hhead, hsum]
      have := ih q hnd'
      omega
    · rw [if_neg hq]
      rw [List.map_congr_left hmap]
      have := ih q hnd'
      omega

theorem deadWeight_le_defsSum (m : List (List Char × List Char))
    (usages : List (List Char)) (h : (m.map Prod.fst).Nodup) :
    deadWeight m usages ≤ defsSum m :=
  keyCost_le_defsSum m (fun k => !(usages.contains k)) h

theorem v2Run_defs_invariants (lines : List (List Char)) :
    defsSum (v2Run lines).defs ≤ (v2Run lines).definition_size_b ∧
    ((v2Run lines).defs.map Prod.fst).Nodup := by
  exact v2RunAux_invariant
    (fun x => defsSum x.defs ≤ x.definition_size_b ∧ (x.defs.map Prod.fst).Nodup)
    (fun _ _ _ hP => ⟨v2Step_defsSum hP.1, v2Step_keysNodup hP.2⟩)
    lines v2Init true ⟨by simp [v2Init, defsSum], by simp [v2Init]⟩

theorem v1Run_defs_invariants (lines : List (List Char)) :
    defsSum (v1Run lines).defs ≤ (v1Run lines).definition_size_b ∧
    ((v1Run lines).defs.map Prod.fst).Nodup := by
  exact v1RunAux_invariant
    (fun x => defsSum x.defs ≤ x.definition_size_b ∧ (x.defs.map Prod.fst).Nodup)
    (fun _ _ _ hP => ⟨v1Step_defsSum hP.1, v1Step_keysNodup hP.2⟩)
    lines v1Init true ⟨by simp [v1Init, defsSum], by simp [v1Init]⟩

/-- C7: in both analyzers the stray set (defined ids with no usage
occurrence) is a subset of the defined ids, the dead-weight estimate is the
sum over stray ids of `1 + 1 + content byte length`, and the dead-weight
total never exceeds the accumulated definition byte size. -/
theorem C7_stray (lines : List (List Char)) :
    ((∀ k ∈ unusedVars (v2Run lines).defs (v2Run lines).usages,
        k ∈ (v2Run lines).defs.map Prod.fst) ∧
      deadWeight (v2Run lines).defs (v2Run lines).usages =
        ((unusedVars (v2Run lines).defs (v2Run lines).usages).map
          (fun k => 1 + 1 +
            bytesLen ((lookupVar (v2Run lines).defs k).getD []))).sum ∧
      deadWeight (v2Run lines).defs (v2Run lines).usages ≤
        (v2Run lines).definition_size_b) ∧
    ((∀ k ∈ unusedVars (v1Run lines).defs (v1Run lines).usages,
        k ∈ (v1Run lines).defs.map Prod.fst) ∧
      deadWeight (v1Run lines).defs (v1Run lines).usages =
        ((unusedVars (v1Run lines).defs (v1Run lines).usages).map
          (fun k => 1 + 1 +
            bytesLen ((lookupVar (v1Run lines).defs k).getD []))).sum ∧
      deadWeight (v1Run lines).defs (v1Run lines).usages ≤
        (v1Run lines).definition_size_b) := by
  constructor
  · refine ⟨?_, rfl, ?_⟩
    · intro k hk
      exact (List.mem_filter.mp hk).1
    · exact le_trans
        (deadWeight_le_defsSum _ _ (v2Run_defs_invariants lines).2)
        (v2Run_defs_invariants lines).1
  · refine ⟨?_, rfl, ?_⟩
    · intro k hk
      exact (List.mem_filter.mp hk).1
    · exact le_trans
        (deadWeight_le_defsSum _ _ (v1Run_defs_invariants lines).2)
        (v1Run_defs_invariants lines).1

/-- C7 witness: the theorem applied to the file `@x hello` (one unused
definition): the stray id `@x` is among the defined ids and the dead weight
`2 + 5 = 7` is at most the definition size `8`. -/
theorem C7_witness :
    (toL "@x" ∈ unusedVars (v2Run [toL "@x hello"]).defs (v2Run [toL "@x hello"]).usages) ∧
    toL "@x" ∈ (v2Run [toL "@x hello"]).defs.map Prod.fst ∧
    deadWeight (v2Run [toL "@x hello"]).defs (v2Run [toL "@x hello"]).usages ≤
      (v2Run [toL "@x hello"]).definition_size_b :=
  ⟨by decide,
    (C7_stray [toL "@x hello"]).1.1 (toL "@x") (by decide),
    (C7_stray [toL "@x hello"]).1.2.2⟩

/-! ### Claim C10: definition contents are never scanned for usages -/

theorem v2Step_scan {first : Bool} {st : V2State} {l : List Char}
    (hP : st.usages = (st.kinds.filterMap scanOf).flatMap findRefs) :
    (v2Step first st l).usages =
      ((v2Step first st l).kinds.filterMap scanOf).flatMap findRefs := by
  by_cases hm : (first && l == ['~']) = true
  · rw [v2Step_marker st hm]
    simp [v2DoMarker, scanOf, List.filterMap_append, hP]
  · have hm' : (first && l == ['~']) = false := by simpa using hm
    by_cases hp : st.parsingDefs = true
    · cases hd : matchDef l with
      | some vc =>
        obtain ⟨vn0, c0⟩ := vc
        rw [v2Step_def st hm' hp hd]
        simp [v2DoDef, scanOf, List.filterMap_append, hP]
      | none =>
        cases he' : matchDefNoContent l with
        | some vn0 =>
          rw [v2Step_defEmpty st hm' hp hd he']
          simp [v2DoDefEmpty, scanOf, List.filterMap_append, hP]
        | none =>
          rw [v2Step_dispatch st hm' (fun _ => ⟨hd, he'⟩)]
          unfold v2Dispatch
          split
          · simp [v2DoBody, v2ScanLine, scanOf, List.filterMap_append, hP]
          · split
            · simp [v2DoHeader, scanOf, List.filterMap_append, hP]
            · split
              · simp [v2DoCmd, v2ScanLine, scanOf, List.filterMap_append, hP]
              · simp [v2DoOther, scanOf, List.filterMap_append, hP]
    · rw [v2Step_dispatch st hm' (fun h => absurd h hp)]
      unfold v2Dispatch
      split
      · simp [v2DoBody, v2ScanLine, scanOf, List.filterMap_append, hP]
      · split
        · simp [v2DoHeader, scanOf, List.filterMap_append, hP]
        · split
          · simp [v2DoCmd, v2ScanLine, scanOf, List.filterMap_append, hP]
          · simp [v2DoOther, scanOf, List.filterMap_append, hP]

theorem v1Step_scan {first : Bool} {st : V1State} {l : List Char}
    (hP : st.usages = (st.kinds.filterMap scanOf).flatMap findRefs) :
    (v1Step first st l).usages =
      ((v1Step first st l).kinds.filterMap scanOf).flatMap findRefs := by
  by_cases hm : (first && l == ['~']) = true
  · rw [v1Step_marker st hm]
    simp [v1DoMarker, scanOf, List.filterMap_append, hP]
  · have hm' : (first && l == ['~']) = false := by simpa using hm
    by_cases hb : st.inBlock = true
    · rw [v1Step_body st hm' hb]
      simp [v1DoBody, v1ScanLine, scanOf, List.filterMap_append, hP]
    · have hb' : st.inBlock = false := by simpa using hb
      cases hd : matchDef l with
      | some vc =>
        obtain ⟨vn0, c0⟩ := vc
        rw [v1Step_def st hm' hb' hd]
        simp [v1DoDef, scanOf, List.filterMap_append, hP]
      | none =>
        cases hh : matchBlockHeader l with
        | some n =>
          rw [v1Step_header st hm' hb' hd hh]
          simp [v1DoHeader, scanOf, List.filterMap_append, hP]
        | none =>
          by_cases hc : matchCmd l = true
          · rw [v1Step_cmd st hm' hb' hd hh hc]
            simp [v1DoCmd, v1ScanLine, scanOf, List.filterMap_append, hP]
          · have hc' : matchCmd l = false := by simpa using hc
            rw [v1Step_other st hm' hb' hd hh hc']
            simp [v1DoOther, scanOf, List.filterMap_append, hP]

theorem v2Run_scan (lines : List (List Char)) :
    (v2Run lines).usages = ((v2Run lines).kinds.filterMap scanOf).flatMap findRefs :=
  v2RunAux_invariant
    (fun x => x.usages = (x.kinds.filterMap scanOf).flatMap findRefs)
    (fun _ _ _ hP => v2Step_scan hP) lines v2Init true rfl

theorem v1Run_scan (lines : List (List Char)) :
    (v1Run lines).usages = ((v1Run lines).kinds.filterMap scanOf).flatMap findRefs :=
  v1RunAux_invariant
    (fun x => x.usages = (x.kinds.filterMap scanOf).flatMap findRefs)
    (fun _ _ _ hP => v1Step_scan hP) lines v1Init true rfl

/-- C10: in both analyzers every usage occurrence comes from the scanned
content of a block-body or standalone-command line (definition lines are
never scanned), so a defined id that occurs in no scanned content — e.g. an
id whose only occurrences outside its own definition line lie in other
definitions' content — is reported as a stray (unused) variable. -/
theorem C10_defs_not_scanned (lines : List (List Char)) :
    ((v2Run lines).usages =
      ((v2Run lines).kinds.filterMap scanOf).flatMap findRefs ∧
     ∀ vn, vn ∈ (v2Run lines).defs.map Prod.fst →
       (∀ s ∈ (v2Run lines).kinds.filterMap scanOf, vn ∉ findRefs s) →
       vn ∈ unusedVars (v2Run lines).defs (v2Run lines).usages) ∧
    ((v1Run lines).usages =
      ((v1Run lines).kinds.filterMap scanOf).flatMap findRefs ∧
     ∀ vn, vn ∈ (v1Run lines).defs.map Prod.fst →
       (∀ s ∈ (v1Run lines).kinds.filterMap scanOf, vn ∉ findRefs s) →
       vn ∈ unusedVars (v1Run lines).defs (v1Run lines).usages) := by
  constructor
  · refine ⟨v2Run_scan lines, ?_⟩
    intro vn hdef hvn
    refine List.mem_filter.mpr ⟨hdef, ?_⟩
    simp only [Bool.not_eq_eq_eq_not, Bool.not_true]
    rw [show ((v2Run lines).usages.contains vn = false) ↔
        vn ∉ (v2Run lines).usages by simp]
    rw [v2Run_scan lines]
    intro hmem
    obtain ⟨s, hs, hvs⟩ := List.mem_flatMap.mp hmem
    exact hvn s hs hvs
  · refine ⟨v1Run_scan lines, ?_⟩
    intro vn hdef hvn
    refine List.mem_filter.mpr ⟨hdef, ?_⟩
    simp only [Bool.not_eq_eq_eq_not, Bool.not_true]
    rw [show ((v1Run lines).usages.contains vn = false) ↔
        vn ∉ (v1Run lines).usages by simp]
    rw [v1Run_scan lines]
    intro hmem
    obtain ⟨s, hs, hvs⟩ := List.mem_flatMap.mp hmem
    exact hvn s hs hvs

/-- C10 witness: in `@y hi\n@x a @y\n` the only occurrence of `@y` outside
its own definition lies in the content of the definition of `@x`; both
analyzers report `@y` as stray. -/
theorem C10_witness :
    (toL "@y" ∈ (v2Run [toL "@y hi", toL "@x a @y"]).defs.map Prod.fst ∧
      toL "@y" ∈ unusedVars (v2Run [toL "@y hi", toL "@x a @y"]).defs
        (v2Run [toL "@y hi", toL "@x a @y"]).usages) ∧
    (toL "@y" ∈ (v1Run [toL "@y hi", toL "@x a @y"]).defs.map Prod.fst ∧
      toL "@y" ∈ unusedVars (v1Run [toL "@y hi", toL "@x a @y"]).defs
        (v1Run [toL "@y hi", toL "@x a @y"]).usages) :=
  ⟨⟨by decide,
    (C10_defs_not_scanned [toL "@y hi", toL "@x a @y"]).1.2 (toL "@y")
      (by decide) (by decide)⟩,
   ⟨by decide,
    (C10_defs_not_scanned [toL "@y hi", toL "@x a @y"]).2.2 (toL "@y")
      (by decide) (by decide)⟩⟩

/-! ### Claim C8: v1 vs v2 reference accounting -/

theorem v1Step_H3 {first : Bool} {st : V1State} {l : List Char}
    (hP : st.command_at_overhead_b = st.usages.length) :
    (v1Step first st l).command_at_overhead_b = (v1Step first st l).usages.length := by
  by_cases hm : (first && l == ['~']) = true
  · rw [v1Step_marker st hm]
    simpa [v1DoMarker] using hP
  · have hm' : (first && l == ['~']) = false := by simpa using hm
    by_cases hb : st.inBlock = true
    · rw [v1Step_body st hm' hb]
      simp [v1DoBody, v1ScanLine, hP]
    · have hb' : st.inBlock = false := by simpa using hb
      cases hd : matchDef l with
      | some vc =>
        obtain ⟨vn0, c0⟩ := vc
        rw [v1Step_def st hm' hb' hd]
        simpa [v1DoDef] using hP
      | none =>
        cases hh : matchBlockHeader l with
        | some n =>
          rw [v1Step_header st hm' hb' hd hh]
          simpa [v1DoHeader] using hP
        | none =>
          by_cases hc : matchCmd l = true
          · rw [v1Step_cmd st hm' hb' hd hh hc]
            simp [v1DoCmd, v1ScanLine, hP]
          · have hc' : matchCmd l = false := by simpa using hc
            rw [v1Step_other st hm' hb' hd hh hc']
            simpa [v1DoOther] using hP

theorem v2Step_H3 {first : Bool} {st : V2State} {l : List Char}
    (hP : st.total_reference_cost_b = refBytesSum st.usages) :
    (v2Step first st l).total_reference_cost_b =
      refBytesSum (v2Step first st l).usages := by
  by_cases hm : (first && l == ['~']) = true
  · rw [v2Step_marker st hm]
    simpa [v2DoMarker] using hP
  · have hm' : (first && l == ['~']) = false := by simpa using hm
    by_cases hp : st.parsingDefs = true
    · cases hd : matchDef l with
      | some vc =>
        obtain ⟨vn0, c0⟩ := vc
        rw [v2Step_def st hm' hp hd]
        simpa [v2DoDef] using hP
      | none =>
        cases he' : matchDefNoContent l with
        | some vn0 =>
          rw [v2Step_defEmpty st hm' hp hd he']
          simpa [v2DoDefEmpty] using hP
        | none =>
          rw [v2Step_dispatch st hm' (fun _ => ⟨hd, he'⟩)]
          unfold v2Dispatch
          split
          · simp [v2DoBody, v2ScanLine, hP, refBytesSum_append]
          · split
            · simp [v2DoHeader, hP]
            · split
              · simp [v2DoCmd, v2ScanLine, hP, refBytesSum_append]
              · simp [v2DoOther, hP]
    · rw [v2Step_dispatch st hm' (fun h => absurd h hp)]
      unfold v2Dispatch
      split
      · simp [v2DoBody, v2ScanLine, hP, refBytesSum_append]
      · split
        · simp [v2DoHeader, hP]
        · split
          · simp [v2DoCmd, v2ScanLine, hP, refBytesSum_append]
          · simp [v2DoOther, hP]

theorem v1Step_usages_ne {first : Bool} {st : V1State} {l : List Char}
    (hP : ∀ t ∈ st.usages, t ≠ []) :
    ∀ t ∈ (v1Step first st l).usages, t ≠ [] := by
  by_cases hm : (first && l == ['~']) = true
  · rw [v1Step_marker st hm]
    simpa [v1DoMarker] using hP
  · have hm' : (first && l == ['~']) = false := by simpa using hm
    by_cases hb : st.inBlock = true
    · rw [v1Step_body st hm' hb]
      intro t ht
      simp only [v1DoBody, v1ScanLine, List.mem_append] at ht
      rcases ht with ht | ht
      · exact hP t ht
      · exact findRefs_ne_nil _ t ht
    · have hb' : st.inBlock = false := by simpa using hb
      cases hd : matchDef l with
      | some vc =>
        obtain ⟨vn0, c0⟩ := vc
        rw [v1Step_def st hm' hb' hd]
        simpa [v1DoDef] using hP
      | none =>
        cases hh : matchBlockHeader l with
        | some n =>
          rw [v1Step_header st hm' hb' hd hh]
          simpa [v1DoHeader] using hP
        | none =>
          by_cases hc : matchCmd l = true
          · rw [v1Step_cmd st hm' hb' hd hh hc]
            intro t ht
            simp only [v1DoCmd, v1ScanLine, List.mem_append] at ht
            rcases ht with ht | ht
            · exact hP t ht
            · exact findRefs_ne_nil _ t ht
          · have hc' : matchCmd l = false := by simpa using hc
            rw [v1Step_other st hm' hb' hd hh hc']
            simpa [v1DoOther] using hP

theorem simDispatch (first : Bool) (s1 : V1State) (st2 : V2State) (l : List Char)
    (hm' : (first && l == ['~']) = false) (hd : matchDef l = none)
    (h1 : s1.inBlock = st2.inBlock) (h2 : s1.blockRem = st2.blockRem)
    (h3 : s1.usages = st2.usages) (hpd : st2.parsingDefs = false) :
    (v1Step first s1 l).inBlock = (v2Dispatch st2 l).inBlock ∧
    (v1Step first s1 l).blockRem = (v2Dispatch st2 l).blockRem ∧
    (v1Step first s1 l).usages = (v2Dispatch st2 l).usages ∧
    ((v2Dispatch st2 l).parsingDefs = true → (v2Dispatch st2 l).inBlock = false) := by
  by_cases hb : st2.inBlock = true
  · rw [v1Step_body s1 hm' (by rw [h1, hb]), v2Dispatch_body st2 hb]
    refine ⟨?_, ?_, ?_, ?_⟩
    · simp [v1DoBody, v1ScanLine, v2DoBody, v2ScanLine, h1, h2]
    · simp [v1DoBody, v1ScanLine, v2DoBody, v2ScanLine, h2]
    · simp [v1DoBody, v1ScanLine, v2DoBody, v2ScanLine, h3]
    · intro hx
      simp [v2DoBody, v2ScanLine, hpd] at hx
  · have hb2 : st2.inBlock = false := by simpa using hb
    have hb1 : s1.inBlock = false := by rw [h1, hb2]
    cases hh : matchBlockHeader l with
    | some n =>
      rw [v1Step_header s1 hm' hb1 hd hh, v2Dispatch_header st2 hb2 hh]
      refine ⟨?_, ?_, ?_, ?_⟩
      · simp [v1DoHeader, v2DoHeader]
      · simp [v1DoHeader, v2DoHeader]
      · simp [v1DoHeader, v2DoHeader, h3]
      · intro hx
        simp [v2DoHeader, hpd] at hx
    | none =>
      by_cases hc : matchCmd l = true
      · rw [v1Step_cmd s1 hm' hb1 hd hh hc, v2Dispatch_cmd st2 hb2 hh hc]
        refine ⟨?_, ?_, ?_, ?_⟩
        · simp [v1DoCmd, v1ScanLine, v2DoCmd, v2ScanLine, h1]
        · simp [v1DoCmd, v1ScanLine, v2DoCmd, v2ScanLine, h2]
        · simp [v1DoCmd, v1ScanLine, v2DoCmd, v2ScanLine, h3]
        · intro hx
          simp [v2DoCmd, v2ScanLine, hpd] at hx
      · have hc' : matchCmd l = false := by simpa using hc
        rw [v1Step_other s1 hm' hb1 hd hh hc', v2Dispatch_other st2 hb2 hh hc']
        refine ⟨?_, ?_, ?_, ?_⟩
        · simp [v1DoOther, v2DoOther, h1]
        · simp [v1DoOther, v2DoOther, h2]
        · simp [v1DoOther, v2DoOther, h3]
        · intro hx
          simp [v2DoOther, hpd] at hx

theorem simStep (first : Bool) (s1 : V1State) (s2 : V2State) (l : List Char)
    (h1 : s1.inBlock = s2.inBlock) (h2 : s1.blockRem = s2.blockRem)
    (h3 : s1.usages = s2.usages) (h4 : s2.parsingDefs = true → s2.inBlock = false) :
    (v1Step first s1 l).inBlock = (v2Step first s2 l).inBlock ∧
    (v1Step first s1 l).blockRem = (v2Step first s2 l).blockRem ∧
    (v1Step first s1 l).usages = (v2Step first s2 l).usages ∧
    ((v2Step first s2 l).parsingDefs = true → (v2Step first s2 l).inBlock = false) := by
  by_cases hm : (first && l == ['~']) = true
  · rw [v1Step_marker s1 hm, v2Step_marker s2 hm]
    refine ⟨by simp [v1DoMarker, v2DoMarker, h1], by simp [v1DoMarker, v2DoMarker, h2],
      by simp [v1DoMarker, v2DoMarker, h3], ?_⟩
    intro hx
    have hx' : s2.parsingDefs = true := by simpa [v2DoMarker] using hx
    simpa [v2DoMarker] using h4 hx'
  · have hm' : (first && l == ['~']) = false := by simpa using hm
    by_cases hp : s2.parsingDefs = true
    · have hb2 : s2.inBlock = false := h4 hp
      have hb1 : s1.inBlock = false := by rw [h1, hb2]
      cases hd : matchDef l with
      | some vc =>
        obtain ⟨vn0, c0⟩ := vc
        rw [v1Step_def s1 hm' hb1 hd, v2Step_def s2 hm' hp hd]
        refine ⟨by simp [v1DoDef, v2DoDef, h1], by simp [v1DoDef, v2DoDef, h2],
          by simp [v1DoDef, v2DoDef, h3], ?_⟩
        intro _
        simp [v2DoDef, hb2]
      | none =>
        cases he' : matchDefNoContent l with
        | some vn0 =>
          rw [v2Step_defEmpty s2 hm' hp hd he',
            v1Step_other s1 hm' hb1 hd (matchDefNoContent_not_header he')
              (matchDefNoContent_not_cmd he')]
          refine ⟨by simp [v1DoOther, v2DoDefEmpty, h1],
            by simp [v1DoOther, v2DoDefEmpty, h2],
            by simp [v1DoOther, v2DoDefEmpty, h3], ?_⟩
          intro _
          simp [v2DoDefEmpty, hb2]
        | none =>
          rw [v2Step_dispatch s2 hm' (fun _ => ⟨hd, he'⟩)]
          exact simDispatch first s1 _ l hm' hd h1 h2 h3 rfl
    · rw [v2Step_dispatch s2 hm' (fun h => absurd h hp)]
      by_cases hb : s2.inBlock = true
      · have hb1 : s1.inBlock = true := by rw [h1, hb]
        rw [v1Step_body s1 hm' hb1, v2Dispatch_body _ (by simpa using hb)]
        refine ⟨?_, ?_, ?_, ?_⟩
        · simp [v1DoBody, v1ScanLine, v2DoBody, v2ScanLine, h1, h2]
        · simp [v1DoBody, v1ScanLine, v2DoBody, v2ScanLine, h2]
        · simp [v1DoBody, v1ScanLine, v2DoBody, v2ScanLine, h3]
        · intro hx
          simp [v2DoBody, v2ScanLine] at hx
      · have hb2 : s2.inBlock = false := by simpa using hb
        have hb1 : s1.inBlock = false := by rw [h1, hb2]
        cases hd : matchDef l with
        | some vc =>
          obtain ⟨vn0, c0⟩ := vc
          rw [v1Step_def s1 hm' hb1 hd,
            v2Dispatch_other _ (by simpa using hb2) (matchDef_not_header hd)
              (matchDef_not_cmd hd)]
          refine ⟨?_, ?_, ?_, ?_⟩
          · simp [v1DoDef, v2DoOther, h1]
          · simp [v1DoDef, v2DoOther, h2]
          · simp [v1DoDef, v2DoOther, h3]
          · intro hx
            simp [v2DoOther] at hx
        | none =>
          exact simDispatch first s1 _ l hm' hd h1 h2 h3 rfl

theorem v1v2_sim (lines : List (List Char)) :
    (v1Run lines).inBlock = (v2Run lines).inBlock ∧
    (v1Run lines).blockRem = (v2Run lines).blockRem ∧
    (v1Run lines).usages = (v2Run lines).usages ∧
    ((v2Run lines).parsingDefs = true → (v2Run lines).inBlock = false) :=
  runAux_rel
    (fun a b => a.inBlock = b.inBlock ∧ a.blockRem = b.blockRem ∧
      a.usages = b.usages ∧ (b.parsingDefs = true → b.inBlock = false))
    (fun first a b l h => simStep first a b l h.1 h.2.1 h.2.2.1 h.2.2.2)
    lines v1Init v2Init true ⟨rfl, rfl, rfl, fun _ => rfl⟩

/-- C8: both analyzers scan exactly the same sequence of reference
occurrences; v1's H3 overhead counts 1 byte per occurrence while v2's H3
overhead sums the full encoded byte length of each reference token, so
v2's H3 is always at least v1's (v1 undercounts). -/
theorem C8_reference_accounting (lines : List (List Char)) :
    (v1Run lines).usages = (v2Run lines).usages ∧
    (v1Run lines).command_at_overhead_b = (v1Run lines).usages.length ∧
    (v2Run lines).total_reference_cost_b = refBytesSum (v2Run lines).usages ∧
    (v1Run lines).command_at_overhead_b ≤ (v2Run lines).total_reference_cost_b := by
  have hsim := (v1v2_sim lines).2.2.1
  have h13 : (v1Run lines).command_at_overhead_b = (v1Run lines).usages.length :=
    v1RunAux_invariant (fun x => x.command_at_overhead_b = x.usages.length)
      (fun _ _ _ hP => v1Step_H3 hP) lines v1Init true rfl
  have h23 : (v2Run lines).total_reference_cost_b = refBytesSum (v2Run lines).usages :=
    v2RunAux_invariant (fun x => x.total_reference_cost_b = refBytesSum x.usages)
      (fun _ _ _ hP => v2Step_H3 hP) lines v2Init true rfl
  have hne : ∀ t ∈ (v1Run lines).usages, t ≠ [] :=
    v1RunAux_invariant (fun x => ∀ t ∈ x.usages, t ≠ [])
      (fun _ _ _ hP => v1Step_usages_ne hP) lines v1Init true (by simp [v1Init])
  refine ⟨hsim, h13, h23, ?_⟩
  rw [h13, h23, ← hsim]
  exact length_le_refBytesSum _ hne

/-! ### Claim C6: total overhead bounded by total size -/

theorem hasBlockPfx_bytes {l : List Char} (h : hasBlockPfx l = true) :
    bytesLen l = 2 + bytesLen (l.drop 2) := by
  cases l with
  | nil => simp [hasBlockPfx] at h
  | cons c r =>
    cases r with
    | nil => simp [hasBlockPfx] at h
    | cons s r2 =>
      simp only [hasBlockPfx, Bool.and_eq_true, Bool.or_eq_true, beq_iff_eq] at h
      obtain ⟨hc, hs⟩ := h
      have h1 : charBytes c = 1 := by
        rcases hc with ((rfl | rfl) | rfl) | rfl <;> decide
      subst hs
      rw [bytesLen_cons, bytesLen_cons]
      have h2 : charBytes ' ' = 1 := by decide
      simp only [List.drop_succ_cons, List.drop_zero]
      omega

theorem stripPfx_bound (l : List Char) :
    (if hasBlockPfx l then 2 else 0) + bytesLen (stripPfx l) ≤ bytesLen l := by
  unfold stripPfx
  by_cases h : hasBlockPfx l = true
  · rw [if_pos h, if_pos h, hasBlockPfx_bytes h]
  · rw [if_neg h, if_neg h]
    omega

theorem scan_charge_bound (content : List Char) :
    refBytesSum (findRefs content) + gapCharge (findGaps content) ≤ bytesLen content :=
  refGap_bound content.length content (le_refl _)

theorem scan_count_charge_bound (content : List Char) :
    (findRefs content).length + gapCharge (findGaps content) ≤ bytesLen content := by
  have h1 := length_le_refBytesSum (findRefs content) (findRefs_ne_nil content)
  have h2 := scan_charge_bound content
  omega

theorem v2Dispatch_overhead (st : V2State) (l : List Char) :
    overheadV2 (v2Dispatch st l) ≤ overheadV2 st + bytesLen l := by
  by_cases hb : st.inBlock = true
  · rw [v2Dispatch_body st hb]
    have e : overheadV2 (v2DoBody st l) = overheadV2 st +
        ((if hasBlockPfx l then 2 else 0) +
          (refBytesSum (findRefs (stripPfx l)) + gapCharge (findGaps (stripPfx l)))) := by
      simp [overheadV2, v2DoBody, v2ScanLine, refBytesSum]
      ring
    have hb1 := stripPfx_bound l
    have hb2 := scan_charge_bound (stripPfx l)
    omega
  · have hb' : st.inBlock = false := by simpa using hb
    cases hh : matchBlockHeader l with
    | some n =>
      rw [v2Dispatch_header st hb' hh]
      have e : overheadV2 (v2DoHeader st n (bytesLen l)) = overheadV2 st := by
        simp [overheadV2, v2DoHeader]
      omega
    | none =>
      by_cases hc : matchCmd l = true
      · rw [v2Dispatch_cmd st hb' hh hc]
        have e : overheadV2 (v2DoCmd st l) = overheadV2 st +
            (refBytesSum (findRefs l) + gapCharge (findGaps l)) := by
          simp [overheadV2, v2DoCmd, v2ScanLine, refBytesSum]
          ring
        have hb2 := scan_charge_bound l
        omega
      · have hc' : matchCmd l = false := by simpa using hc
        rw [v2Dispatch_other st hb' hh hc']
        have e : overheadV2 (v2DoOther st (bytesLen l)) = overheadV2 st := by
          simp [overheadV2, v2DoOther]
        omega

theorem v2Step_overhead (first : Bool) (st : V2State) (l : List Char) :
    overheadV2 (v2Step first st l) ≤ overheadV2 st + bytesLen l := by
  by_cases hm : (first && l == ['~']) = true
  · rw [v2Step_marker st hm]
    have e : overheadV2 (v2DoMarker { st with total_lines := st.total_lines + 1 }) =
        overheadV2 st := by simp [overheadV2, v2DoMarker]
    omega
  · have hm' : (first && l == ['~']) = false := by simpa using hm
    by_cases hp : st.parsingDefs = true
    · cases hd : matchDef l with
      | some vc =>
        obtain ⟨vn0, c0⟩ := vc
        rw [v2Step_def st hm' hp hd]
        have e : overheadV2 (v2DoDef { st with total_lines := st.total_lines + 1 }
            vn0 c0 (bytesLen l)) = overheadV2 st + 1 := by
          simp [overheadV2, v2DoDef]
          omega
        have hl : 1 ≤ bytesLen l := by
          obtain ⟨rest, hrest⟩ := matchDef_head hd
          rw [hrest, bytesLen_cons]
          have := one_le_charBytes '@'
          omega
        omega
      | none =>
        cases he' : matchDefNoContent l with
        | some vn0 =>
          rw [v2Step_defEmpty st hm' hp hd he']
          have e : overheadV2 (v2DoDefEmpty { st with total_lines := st.total_lines + 1 }
              vn0 (bytesLen l)) = overheadV2 st + 1 := by
            simp [overheadV2, v2DoDefEmpty]
            omega
          have hl := matchDefNoContent_bytes he'
          omega
        | none =>
          rw [v2Step_dispatch st hm' (fun _ => ⟨hd, he'⟩)]
          refine le_trans (v2Dispatch_overhead _ l) ?_
          have e : overheadV2 ({ st with total_lines := st.total_lines + 1, parsingDefs := false } : V2State) = overheadV2 st := by
            simp [overheadV2]
          omega
    · rw [v2Step_dispatch st hm' (fun h => absurd h hp)]
      refine le_trans (v2Dispatch_overhead _ l) ?_
      have e : overheadV2 ({ st with total_lines := st.total_lines + 1, parsingDefs := false } : V2State) = overheadV2 st := by
        simp [overheadV2]
      omega

theorem v1Step_overhead (first : Bool) (st : V1State) (l : List Char) :
    overheadV1 (v1Step first st l) ≤ overheadV1 st + bytesLen l := by
  by_cases hm : (first && l == ['~']) = true
  · rw [v1Step_marker st hm]
    have e : overheadV1 (v1DoMarker { st with total_lines := st.total_lines + 1 }) =
        overheadV1 st := by simp [overheadV1, v1DoMarker]
    omega
  · have hm' : (first && l == ['~']) = false := by simpa using hm
    by_cases hb : st.inBlock = true
    · rw [v1Step_body st hm' hb]
      have e : overheadV1 (v1DoBody { st with total_lines := st.total_lines + 1 } l) =
          overheadV1 st + ((if hasBlockPfx l then 2 else 0) +
            ((findRefs (stripPfx l)).length + gapCharge (findGaps (stripPfx l)))) := by
        simp [overheadV1, v1DoBody, v1ScanLine]
        ring
      have hb1 := stripPfx_bound l
      have hb2 := scan_count_charge_bound (stripPfx l)
      omega
    · have hb' : st.inBlock = false := by simpa using hb
      cases hd : matchDef l with
      | some vc =>
        obtain ⟨vn0, c0⟩ := vc
        rw [v1Step_def st hm' hb' hd]
        have e : overheadV1 (v1DoDef { st with total_lines := st.total_lines + 1 }
            vn0 c0 (bytesLen l)) = overheadV1 st + 1 := by
          simp [overheadV1, v1DoDef]
          omega
        have hl : 1 ≤ bytesLen l := by
          obtain ⟨rest, hrest⟩ := matchDef_head hd
          rw [hrest, bytesLen_cons]
          have := one_le_charBytes '@'
          omega
        omega
      | none =>
        cases hh : matchBlockHeader l with
        | some n =>
          rw [v1Step_header st hm' hb' hd hh]
          have e : overheadV1 (v1DoHeader { st with total_lines := st.total_lines + 1 }
              n (bytesLen l)) = overheadV1 st := by
            simp [overheadV1, v1DoHeader]
          omega
        | none =>
          by_cases hc : matchCmd l = true
          · rw [v1Step_cmd st hm' hb' hd hh hc]
            have e : overheadV1 (v1DoCmd { st with total_lines := st.total_lines + 1 } l) =
                overheadV1 st + ((findRefs l).length + gapCharge (findGaps l)) := by
              simp [overheadV1, v1DoCmd, v1ScanLine]
              ring
            have hb2 := scan_count_charge_bound l
            omega
          · have hc' : matchCmd l = false := by simpa using hc
            rw [v1Step_other st hm' hb' hd hh hc']
            have e : overheadV1 (v1DoOther { st with total_lines := st.total_lines + 1 }
                (bytesLen l)) = overheadV1 st := by
              simp [overheadV1, v1DoOther]
            omega

theorem v2RunAux_overhead :
    ∀ (ls : List (List Char)) (st : V2State) (first : Bool),
      overheadV2 (v2RunAux st first ls) ≤ overheadV2 st + (ls.map bytesLen).sum := by
  intro ls
  induction ls with
  | nil => intro st first; simp [v2RunAux]
  | cons l ls ih =>
    intro st first
    show overheadV2 (v2RunAux (v2Step first st l) false ls) ≤ _
    have h1 := ih (v2Step first st l) false
    have h2 := v2Step_overhead first st l
    rw [List.map_cons, List.sum_cons]
    omega

theorem v1RunAux_overhead :
    ∀ (ls : List (List Char)) (st : V1State) (first : Bool),
      overheadV1 (v1RunAux st first ls) ≤ overheadV1 st + (ls.map bytesLen).sum := by
  intro ls
  induction ls with
  | nil => intro st first; simp [v1RunAux]
  | cons l ls ih =>
    intro st first
    show overheadV1 (v1RunAux (v1Step first st l) false ls) ≤ _
    have h1 := ih (v1Step first st l) false
    have h2 := v1Step_overhead first st l
    rw [List.map_cons, List.sum_cons]
    omega

theorem overheadPct_bounds {o T : Nat} (h : o ≤ T) (hT : 0 < T) :
    0 ≤ overheadPct o T ∧ overheadPct o T ≤ 100 := by
  unfold overheadPct
  have hT' : (0 : ℚ) < (T : ℚ) := by exact_mod_cast hT
  constructor
  · positivity
  · have hle : (o : ℚ) ≤ (T : ℚ) := by exact_mod_cast h
    have hdiv : (o : ℚ) / (T : ℚ) ≤ 1 := (div_le_one hT').mpr hle
    calc (o : ℚ) / (T : ℚ) * 100 ≤ 1 * 100 := by
          apply mul_le_mul_of_nonneg_right hdiv
          norm_num
      _ = 100 := by norm_num

/-- C6: when the reported total byte size is at least the sum of the encoded
byte lengths of the lines (as it is when it equals that sum plus the
line-terminator bytes), the total syntax overhead `H1 + H2 + H3 + H4` of
either analyzer is at most the total file size, and for non-empty files the
overhead percentage lies in `[0, 100]`. -/
theorem C6_overhead_bounds (lines : List (List Char)) (totalSize : Nat)
    (h : (lines.map bytesLen).sum ≤ totalSize) :
    overheadV2 (v2Run lines) ≤ totalSize ∧
    overheadV1 (v1Run lines) ≤ totalSize ∧
    (0 < totalSize →
      (0 ≤ overheadPct (overheadV2 (v2Run lines)) totalSize ∧
        overheadPct (overheadV2 (v2Run lines)) totalSize ≤ 100) ∧
      (0 ≤ overheadPct (overheadV1 (v1Run lines)) totalSize ∧
        overheadPct (overheadV1 (v1Run lines)) totalSize ≤ 100)) := by
  have h2 : overheadV2 (v2Run lines) ≤ totalSize := by
    show overheadV2 (v2RunAux v2Init true lines) ≤ totalSize
    have := v2RunAux_overhead lines v2Init true
    have hinit : overheadV2 v2Init = 0 := rfl
    omega
  have h1 : overheadV1 (v1Run lines) ≤ totalSize := by
    show overheadV1 (v1RunAux v1Init true lines) ≤ totalSize
    have := v1RunAux_overhead lines v1Init true
    have hinit : overheadV1 v1Init = 0 := rfl
    omega
  exact ⟨h2, h1, fun ht => ⟨overheadPct_bounds h2 ht, overheadPct_bounds h1 ht⟩⟩

/-- C6 witness: the theorem applied to the one-line file `@x hello`
(8 line bytes + 1 newline = 9 total bytes). -/
theorem C6_witness :
    (([toL "@x hello"].map bytesLen).sum ≤ 9 ∧ 0 < 9) ∧
    overheadV2 (v2Run [toL "@x hello"]) ≤ 9 ∧
    overheadV1 (v1Run [toL "@x hello"]) ≤ 9 ∧
    overheadPct (overheadV2 (v2Run [toL "@x hello"])) 9 ≤ 100 :=
  ⟨⟨by decide, by decide⟩,
    (C6_overhead_bounds [toL "@x hello"] 9 (by decide)).1,
    (C6_overhead_bounds [toL "@x hello"] 9 (by decide)).2.1,
    (((C6_overhead_bounds [toL "@x hello"] 9 (by decide)).2.2 (by decide)).1).2⟩

end Cdiff
